import Mathlib

/-!
Shallow embedding of `bitcalm/actions.py` (an in-process, time-driven task
scheduler).  Timestamps (`datetime.utcnow()`) are modelled as natural numbers
(seconds); `timedelta(seconds = s)` is addition of `s`.  The underlying work
functions are external collaborators: an invocation is modelled by passing the
work's running time `d` (the invocation starts at `t`, the work returns at
`t + d`) and its returned value `r : Int` (Python truthiness: a result is
"success" for the base/one-time actions iff it is non-zero; the step action
compares the result with -1 and 1).

Mutable Python objects are modelled with an explicit heap: actions are
identified by numeric ids, a `World` carries the heap, the single pool's
member list (`ActionPool._actions`), an allocation counter for actions built
by `ActionSeed.grow`, and the log-sink event list.

Python-2 comparison semantics that matter here: `Action.__cmp__` compares by
the `time` attribute, so `list.remove` and `min` work up to *scheduled-time
equality*.  CPython 2.7 datetimes refuse ordering comparisons against other
types ("to stop comparison from falling back to address comparison" the C
implementation raises `TypeError: can't compare datetime.datetime to
NoneType`); only `==`/`!=` degrade to `False`/`True`.  Hence `cmp` between a
`None` time and a concrete time raises `TypeError`, while `cmp(None, None)`
is 0.  `removeScan` models the resulting three-way outcome of `list.remove`'s
scan (its identity shortcut included); `ActionPool.next` never performs a
mixed comparison because the code filters out `None` times before `min`.
-/

/-- A record in the logging sink: informational or error-level, tagged with
the work identity of the action being reported on. -/
inductive LogEntry where
  | info (f : Nat)
  | err (f : Nat)
deriving DecidableEq

/-- Argument of `ActionPool.get`/`has`: either a callable (matched against
`_func`) or a non-callable value (matched against `tag`; Python's `None` is a
legal tag value, hence `Option String`). -/
inductive Ident where
  | func (f : Nat)
  | tagv (t : Option String)
deriving DecidableEq

/-- The `nexttime` constructor argument of `Action`: a number of seconds, or a
callable computing the next absolute time (it may return `None`).  The
callable is modelled as a function of the current time. -/
inductive NextSpec where
  | interval (p : Nat)
  | custom (f : Nat → Option Nat)

/-- The `_next` attribute: `Action._default_next`, or the user's callable. -/
inductive NextRule where
  | defaultNext
  | custom (f : Nat → Option Nat)

/-- Which Python class an action (or an `ActionSeed.cls`) is. -/
inductive Variant where
  | base
  | onetime
  | stepv
deriving DecidableEq

/-- An entry of `OneTimeAction._cancel`: an `Action` instance, or a
function/tag passed to `ActionPool.get`. -/
inductive CancelItem where
  | ref (id : Nat)
  | ident (q : Ident)
deriving DecidableEq

/-- An entry of `OneTimeAction._followers`: an already-built action, or an
`ActionSeed` holding the class and the constructor arguments verbatim. -/
inductive FollowerItem where
  | ref (id : Nat)
  | seed (cls : Variant) (nexttime : NextSpec) (func : Nat) (tag : Option String)
      (start : Option Nat) (followers : List FollowerItem)
      (cancel : List CancelItem) (stepkw : Option Nat)

/-- The attributes of one `Action` object (fields of all three variants are
present; `followers`/`cancel` are only meaningful for `onetime`, `step` only
for `stepv`).  `inPool` models the `pool` back-reference (there is a single
pool in a `World`, so the reference is a Boolean). -/
structure ActionObj where
  tag : Option String
  inPool : Bool
  lastexectime : Option Nat
  func : Nat
  period : Nat
  nextRule : NextRule
  time : Option Nat
  variant : Variant
  followers : List FollowerItem
  cancel : List CancelItem
  step : Nat

/-- Global state: heap of action objects, the pool's `_actions` list (ids, in
insertion order), the id allocator for `grow`, and the log. -/
structure World where
  heap : Nat → ActionObj
  pool : List Nat
  nextId : Nat
  log : List LogEntry

/-- Heap update at one id. -/
def hupd (h : Nat → ActionObj) (i : Nat) (a : ActionObj) : Nat → ActionObj :=
  fun j => if j = i then a else h j

@[simp] theorem hupd_same (h : Nat → ActionObj) (i : Nat) (a : ActionObj) :
    hupd h i a i = a := by
  simp [hupd]

theorem hupd_other (h : Nat → ActionObj) (i : Nat) (a : ActionObj) (j : Nat)
    (hj : j ≠ i) : hupd h i a j = h j := by
  simp [hupd, hj]

/-- Evaluation of `self._next()` at current time `now`:
`Action._default_next` is `(self.lastexectime or datetime.utcnow()) + timedelta(seconds=self._period)`. -/
def nextVal (a : ActionObj) (now : Nat) : Option Nat :=
  match a.nextRule with
  | NextRule.defaultNext => some (a.lastexectime.getD now + a.period)
  | NextRule.custom f => f now

/-- Constructor core shared by the three classes (`Action.__init__` after the
subclass has popped its own keyword arguments).  `start` models
`kwargs.pop('start', None)`, `tag` models `kwargs.pop('tag', None)`. -/
def Action.initCore (now : Nat) (nexttime : NextSpec) (func : Nat)
    (tag : Option String) (start : Option Nat) (variant : Variant)
    (followers : List FollowerItem) (cancel : List CancelItem)
    (step : Nat) : ActionObj :=
  let pr : Nat × NextRule :=
    match nexttime with
    | NextSpec.interval p => (p, NextRule.defaultNext)
    | NextSpec.custom f => (0, NextRule.custom f)
  let a0 : ActionObj :=
    { tag := tag, inPool := false, lastexectime := none, func := func,
      period := pr.1, nextRule := pr.2, time := none, variant := variant,
      followers := followers, cancel := cancel, step := step }
  match start with
  | none => { a0 with time := nextVal a0 now }
  | some s => { a0 with time := some (now + s) }

/-- `Action.__init__`. -/
def Action.init (now : Nat) (nexttime : NextSpec) (func : Nat)
    (tag : Option String) (start : Option Nat) : ActionObj :=
  Action.initCore now nexttime func tag start Variant.base [] [] 600

/-- `OneTimeAction.__init__`: pops `followers` and `cancel` (defaults `[]`),
then delegates to `Action.__init__`. -/
def OneTimeAction.init (now : Nat) (nexttime : NextSpec) (func : Nat)
    (tag : Option String) (start : Option Nat)
    (followers : List FollowerItem) (cancel : List CancelItem) : ActionObj :=
  Action.initCore now nexttime func tag start Variant.onetime followers cancel 600

/-- `StepAction.__init__`: pops `step` with default 600, then delegates to
`Action.__init__`. -/
def StepAction.init (now : Nat) (nexttime : NextSpec) (func : Nat)
    (tag : Option String) (start : Option Nat) (stepkw : Option Nat) : ActionObj :=
  Action.initCore now nexttime func tag start Variant.stepv [] [] (stepkw.getD 600)

/-- `ActionSeed.grow`: `self.cls(*self.args, **self.kwargs)`. -/
def growSeed (now : Nat) (cls : Variant) (nexttime : NextSpec) (func : Nat)
    (tag : Option String) (start : Option Nat) (followers : List FollowerItem)
    (cancel : List CancelItem) (stepkw : Option Nat) : ActionObj :=
  match cls with
  | Variant.base => Action.init now nexttime func tag start
  | Variant.onetime => OneTimeAction.init now nexttime func tag start followers cancel
  | Variant.stepv => StepAction.init now nexttime func tag start stepkw

/-- `ActionPool._funcs`. -/
def funcs (w : World) : List Nat :=
  w.pool.map (fun j => (w.heap j).func)

/-- Set the `pool` back-reference of one action object. -/
def setInPool (w : World) (i : Nat) (b : Bool) : World :=
  { w with heap := hupd w.heap i { w.heap i with inPool := b } }

/-- `ActionPool.add`. -/
def ActionPool.add (w : World) (i : Nat) : World × Bool :=
  if (w.heap i).func ∈ funcs w then (w, false)
  else ({ setInPool w i true with pool := w.pool ++ [i] }, true)

/-- Back-reference assignment loop of `ActionPool.extend`. -/
def setInPoolAll (w : World) (l : List Nat) : World :=
  l.foldl (fun w j => setInPool w j true) w

/-- `ActionPool.extend`: the filter compares each input element against the
*existing* members only (`self._funcs()` is read before `self._actions` is
extended), then appends the survivors, sets their back-references and returns
how many were appended. -/
def ActionPool.extend (w : World) (ids : List Nat) : World × Nat :=
  let keep := ids.filter (fun j => decide ((w.heap j).func ∉ funcs w))
  (setInPoolAll { w with pool := w.pool ++ keep } keep, keep.length)

/-- The two CPython exceptions `list.remove` can raise on a list of
`Action`s: `ValueError` when the scan finds no equal element, `TypeError`
when `Action.__cmp__` orders a `None` time against a concrete one. -/
inductive PyErr where
  | valueError
  | typeError
deriving DecidableEq

/-- `list.remove` of CPython 2 on a list of `Action`s, removing element `i`'s
object: per scanned element, the identity shortcut of
`PyObject_RichCompareBool` matches first; otherwise `Action.__cmp__` runs
`cmp` on the `time` attributes — equal concrete times or two `None`s match,
distinct concrete times continue the scan, and a `None` against a concrete
time raises `TypeError`.  An exhausted scan raises `ValueError`. -/
def removeScan (h : Nat → ActionObj) (i : Nat) (t : Option Nat) :
    List Nat → Except PyErr (List Nat)
  | [] => Except.error PyErr.valueError
  | j :: rest =>
      if j = i then Except.ok rest
      else
        match (h j).time, t with
        | none, none => Except.ok rest
        | some a, some b =>
            if a = b then Except.ok rest
            else Except.map (fun l => j :: l) (removeScan h i t rest)
        | none, some _ => Except.error PyErr.typeError
        | some _, none => Except.error PyErr.typeError

/-- `ActionPool.remove`: `self._actions.remove(action); action.pool = None`.
The back-reference cleared is the *argument's*, whichever list element was
dropped; a `ValueError` or `TypeError` propagates before the clearing. -/
def ActionPool.remove (w : World) (i : Nat) : Except PyErr World :=
  match removeScan w.heap i ((w.heap i).time) w.pool with
  | Except.error e => Except.error e
  | Except.ok p => Except.ok { setInPool w i false with pool := p }

/-- Lookup worker of `ActionPool.get`: scan `self._actions` in list order for
the first member whose `_func` (callable identifier) or `tag` (non-callable
identifier) equals the argument. -/
def getIn (h : Nat → ActionObj) (p : List Nat) (q : Ident) : Option Nat :=
  match q with
  | Ident.func f => p.find? (fun j => decide ((h j).func = f))
  | Ident.tagv t => p.find? (fun j => decide ((h j).tag = t))

/-- `ActionPool.get`. -/
def ActionPool.get (w : World) (q : Ident) : Option Nat :=
  getIn w.heap w.pool q

/-- `ActionPool.has`: `bool(self.get(...))` (an `Action` instance is always
truthy, `None` is falsy). -/
def ActionPool.has (w : World) (q : Ident) : Bool :=
  (ActionPool.get w q).isSome

/-- The strict comparison driving `min` in `ActionPool.next`.  Only the
both-concrete branch is ever exercised: the code filters out `None` times
before calling `min`, so no mixed comparison (which CPython would answer
with a `TypeError`) can occur there; the `none` branches are unreachable
placeholders. -/
def pyTimeLt : Option Nat → Option Nat → Bool
  | none, none => false
  | none, some _ => true
  | some _, none => false
  | some a, some b => decide (a < b)

/-- CPython's `min`: the first element is the initial candidate, and a later
element replaces it only when strictly smaller. -/
def minByTime (h : Nat → ActionObj) : Nat → List Nat → Nat
  | best, [] => best
  | best, x :: rest =>
      minByTime h (if pyTimeLt (h x).time (h best).time then x else best) rest

/-- `ActionPool.next`: `None` for the empty pool; otherwise
`min(filter(lambda a: a.time is not None, self._actions))`, which raises
(`Except.error`) when the filtered list is empty. -/
def ActionPool.next (w : World) : Except Unit (Option Nat) :=
  if w.pool.isEmpty then Except.ok none
  else
    match w.pool.filter (fun j => decide ((w.heap j).time ≠ none)) with
    | [] => Except.error ()
    | x :: rest => Except.ok (some (minByTime w.heap x rest))

/-- Append an informational log record. -/
def logI (w : World) (f : Nat) : World :=
  { w with log := w.log ++ [LogEntry.info f] }

/-- Append an error-level log record. -/
def logE (w : World) (f : Nat) : World :=
  { w with log := w.log ++ [LogEntry.err f] }

/-- `self.lastexectime = datetime.utcnow()` at time `now`. -/
def setLastExec (w : World) (i : Nat) (now : Nat) : World :=
  { w with heap := hupd w.heap i { w.heap i with lastexectime := some now } }

/-- `Action.next`: `self.time = self._next()` evaluated at time `now`. -/
def Action.next (w : World) (i : Nat) (now : Nat) : World :=
  { w with heap := hupd w.heap i { w.heap i with time := nextVal (w.heap i) now } }

/-- `Action.delay`: `self.time = datetime.utcnow() + timedelta(seconds=period)`
(the `period` parameter defaults to 600 at every call site below). -/
def Action.delay (w : World) (i : Nat) (now : Nat) (period : Nat) : World :=
  { w with heap := hupd w.heap i { w.heap i with time := some (now + period) } }

/-- `Action.__call__`: invocation starting at `t`, the work running for `d`
seconds and returning `r`.  `lastexectime` is set to the start time *before*
the work runs; a truthy result reschedules via `self.next()` (evaluated at
`t + d`), a falsy one via `self.delay()` plus an error-level report. -/
def Action.call (w : World) (i t d : Nat) (r : Int) : World :=
  let w0 := setLastExec (logI w ((w.heap i).func)) i t
  if r ≠ 0 then logI (Action.next w0 i (t + d)) ((w.heap i).func)
  else logE (Action.delay w0 i (t + d) 600) ((w.heap i).func)

/-- `StepAction.__call__`: the work runs first (over `t .. t + d`), then
`lastexectime` is set to the *finish* time; `-1` means one more step
(reschedule by `self.step`), `1` means complete (`self.next()`), anything
else is a failure (`self.delay()` plus error report). -/
def StepAction.call (w : World) (i t d : Nat) (r : Int) : World :=
  let w0 := setLastExec (logI w ((w.heap i).func)) i (t + d)
  if r = -1 then
    let a1 := { w0.heap i with time := some (t + d + (w0.heap i).step) }
    logI { w0 with heap := hupd w0.heap i a1 } ((w.heap i).func)
  else if r = 1 then logI (Action.next w0 i (t + d)) ((w.heap i).func)
  else logE (Action.delay w0 i (t + d) 600) ((w.heap i).func)

/-- One iteration of the cancellation loop of `OneTimeAction.__call__`:
an `Action` instance is removed directly; anything else is resolved with
`pool.get` and a miss is skipped (`continue`). -/
def cancelStep (w : World) (c : CancelItem) : Except PyErr World :=
  match c with
  | CancelItem.ref j => ActionPool.remove w j
  | CancelItem.ident q =>
      match ActionPool.get w q with
      | none => Except.ok w
      | some j => ActionPool.remove w j

/-- The whole cancellation loop; an exception from `remove` propagates. -/
def cancelFold (w : World) : List CancelItem → Except PyErr World
  | [] => Except.ok w
  | c :: cs => Except.bind (cancelStep w c) (fun w1 => cancelFold w1 cs)

/-- `grow` of one follower entry at time `now`: an already-built action passes
through, an `ActionSeed` allocates a fresh action built by `ActionSeed.grow`. -/
def growOne (w : World) (now : Nat) : FollowerItem → World × Nat
  | FollowerItem.ref a => (w, a)
  | FollowerItem.seed cls nexttime func tag start followers cancel stepkw =>
      ({ w with
          heap := hupd w.heap w.nextId
            (growSeed now cls nexttime func tag start followers cancel stepkw),
          nextId := w.nextId + 1 }, w.nextId)

/-- `map(grow, self._followers)`, left to right. -/
def growAll (w : World) (now : Nat) : List FollowerItem → World × List Nat
  | [] => (w, [])
  | f :: fs =>
      let p1 := growOne w now f
      let p2 := growAll p1.1 now fs
      (p2.1, p1.2 :: p2.2)

/-- Ids of the (now all built) follower entries; a leftover seed has no
`next()` method in Python (it would raise), and never occurs after `grow`. -/
def followerIds : List FollowerItem → List Nat
  | [] => []
  | FollowerItem.ref a :: rest => a :: followerIds rest
  | FollowerItem.seed _ _ _ _ _ _ _ _ :: rest => followerIds rest

/-- The follower block of `OneTimeAction.__call__` (guarded by
`if self._followers:`): materialize the followers, store the new list back
into `self._followers`, then `pool.extend(self._followers)`. -/
def followersPhase (w : World) (i now : Nat) : World :=
  if (w.heap i).followers.isEmpty then w
  else
    let gp := growAll w now ((w.heap i).followers)
    let a1 := { gp.1.heap i with followers := gp.2.map FollowerItem.ref }
    let w3 := { gp.1 with heap := hupd gp.1.heap i a1 }
    (ActionPool.extend w3 gp.2).1

/-- The final `for follower in self._followers: follower.next()` loop. -/
def nextAll (w : World) (now : Nat) : List Nat → World
  | [] => w
  | j :: js => nextAll (Action.next w j now) now js

/-- `OneTimeAction.__call__`: `lastexectime` is set to the start time `t`
before the work runs; on a truthy result, when attached, the action removes
itself, runs the cancellation loop, materializes/inserts the followers and
calls `next()` on each of them, all at time `t + d`; on a falsy result it
reschedules via `self.next()` (no backoff, no error report). -/
def OneTimeAction.call (w : World) (i t d : Nat) (r : Int) : Except PyErr World :=
  let w0 := setLastExec (logI w ((w.heap i).func)) i t
  if r ≠ 0 then
    if (w0.heap i).inPool then
      Except.bind (ActionPool.remove w0 i) (fun w1 =>
        Except.bind (cancelFold w1 ((w1.heap i).cancel)) (fun w2 =>
          let w4 := followersPhase w2 i (t + d)
          Except.ok (logI (nextAll w4 (t + d) (followerIds ((w4.heap i).followers)))
            ((w.heap i).func))))
    else Except.ok (logI w0 ((w.heap i).func))
  else Except.ok (Action.next w0 i (t + d))

/-- What one entry of the cancellation loop would act on, against member list
`p`: a direct `Action` reference stands for itself, anything else goes through
the pool lookup (a `none` is the silently skipped miss). -/
def resolveC (h : Nat → ActionObj) (p : List Nat) (c : CancelItem) : Option Nat :=
  match c with
  | CancelItem.ref j => some j
  | CancelItem.ident q => getIn h p q

/-- The cancel targets that resolve against member list `p`, in loop order. -/
def targetsOf (h : Nat → ActionObj) (p : List Nat) (cs : List CancelItem) : List Nat :=
  cs.filterMap (resolveC h p)

/-! Concrete states used by the witnesses and counterexamples below. -/

/-- A plain base action object with all-default fields. -/
def act0 : ActionObj :=
  { tag := none, inPool := false, lastexectime := none, func := 0, period := 0,
    nextRule := NextRule.defaultNext, time := none, variant := Variant.base,
    followers := [], cancel := [], step := 600 }

/-- A base action object with given work identity, scheduled time and tag. -/
def mkAct (f : Nat) (tm : Option Nat) (tg : Option String) : ActionObj :=
  { act0 with func := f, time := tm, tag := tg }

/-- Pool `[0]` with a spare non-member action `2`; work identity 5 appears at
members 0 and at the non-member 1. -/
def cw7 : World :=
  { heap := fun j =>
      if j = 0 then { mkAct 5 (some 1) none with inPool := true }
      else if j = 1 then mkAct 5 (some 2) none
      else mkAct 6 (some 3) none,
    pool := [0], nextId := 3, log := [] }

/-- Empty pool; actions 0 and 1 are distinct objects sharing work identity 7. -/
def cw3 : World :=
  { heap := fun j => if j = 0 then mkAct 7 (some 1) none else mkAct 7 (some 2) none,
    pool := [], nextId := 2, log := [] }

/-- Non-empty pool whose only member has an undefined scheduled time. -/
def cw2 : World :=
  { heap := fun _ => mkAct 1 none none, pool := [0], nextId := 1, log := [] }

/-- Pool `[0, 1]`, both members with scheduled time 4; member 1 untagged,
member 0 tagged.  Non-member 9 also has scheduled time 4. -/
def cw9 : World :=
  { heap := fun j =>
      if j = 0 then { mkAct 1 (some 4) (some "a") with inPool := true }
      else if j = 1 then { mkAct 2 (some 4) none with inPool := true }
      else mkAct 3 (some 4) none,
    pool := [0, 1], nextId := 2, log := [] }

/-- Pool `[0]` whose single member has an undefined scheduled time, together
with a non-member action 1 carrying a concrete scheduled time. -/
def cwM : World :=
  { heap := fun j =>
      if j = 0 then { mkAct 1 none none with inPool := true }
      else mkAct 2 (some 4) none,
    pool := [0], nextId := 2, log := [] }

/-- Pool `[0, 1]`: a tagged member in front of an untagged one. -/
def cw10 : World :=
  { heap := fun j =>
      if j = 0 then { mkAct 1 (some 4) (some "a") with inPool := true }
      else { mkAct 2 (some 6) none with inPool := true },
    pool := [0, 1], nextId := 2, log := [] }

/-- A pool member with recurrence period 30, used to invoke the base and
step calls on. -/
def cw4 : World :=
  { heap := fun _ => { mkAct 8 (some 50) none with inPool := true, period := 30 },
    pool := [0], nextId := 1, log := [] }

/-- Like `cw4` but the member is a step action with `step = 45`. -/
def stepAct : ActionObj :=
  { mkAct 8 (some 50) none with
      inPool := true, period := 30, variant := Variant.stepv, step := 45 }

def cw5 : World :=
  { heap := fun _ => stepAct, pool := [0], nextId := 1, log := [] }

/-- A one-time action (id 1) attached to pool `[0, 1]` whose scheduled time
equals that of the earlier member 0. -/
def cwB : World :=
  { heap := fun j =>
      if j = 0 then { mkAct 1 (some 5) none with inPool := true }
      else { mkAct 2 (some 5) none with inPool := true, variant := Variant.onetime },
    pool := [0, 1], nextId := 2, log := [] }

/-- The one-time action invoked by the `C1` witness: cancels the member
tagged `"x"` plus an unresolvable work identity 99, and chains one deferred
factory for a base action with period 30. -/
def otAct : ActionObj :=
  { mkAct 10 (some 5) none with
      inPool := true, variant := Variant.onetime,
      cancel := [CancelItem.ident (Ident.tagv (some "x")), CancelItem.ident (Ident.func 99)],
      followers := [FollowerItem.seed Variant.base (NextSpec.interval 30) 50 none none [] [] none] }

/-- Pool `[0, 1, 2]`: the one-time action 0 with a cancel list and a deferred
follower, the tagged member 1 and the unrelated member 2. -/
def cwC : World :=
  { heap := fun j =>
      if j = 0 then otAct
      else if j = 1 then { mkAct 11 (some 7) (some "x") with inPool := true }
      else if j = 2 then { mkAct 12 (some 9) none with inPool := true }
      else act0,
    pool := [0, 1, 2], nextId := 3, log := [] }


/-- Heap relation: `h2` differs from `h1` at most in `inPool` fields (the
shape of every mutation done by the cancellation loop). -/
def inPoolOnly (h1 h2 : Nat → ActionObj) : Prop :=
  ∀ k, ∃ b, h2 k = { h1 k with inPool := b }

/-- All scheduled times of the listed actions are pairwise distinct (the
regime in which equality-by-`__cmp__` coincides with object identity). -/
def TimesDistinct (h : Nat → ActionObj) (p : List Nat) : Prop :=
  p.Pairwise (fun j k => (h j).time ≠ (h k).time)

/-- Position `n` of a follower list holds a deferred factory. -/
def isSeedAt (fl : List FollowerItem) (n : Nat) : Prop :=
  ∃ cls nt f tg st fo ca sk,
    fl.get? n = some (FollowerItem.seed cls nt f tg st fo ca sk)

/-! Basic lemmas about the state helpers. -/

@[simp] theorem setInPool_pool (w : World) (i : Nat) (b : Bool) :
    (setInPool w i b).pool = w.pool := rfl

@[simp] theorem setInPool_log (w : World) (i : Nat) (b : Bool) :
    (setInPool w i b).log = w.log := rfl

@[simp] theorem setInPool_nextId (w : World) (i : Nat) (b : Bool) :
    (setInPool w i b).nextId = w.nextId := rfl

theorem setInPool_heap (w : World) (i : Nat) (b : Bool) (k : Nat) :
    (setInPool w i b).heap k =
      if k = i then { w.heap k with inPool := b } else w.heap k := by
  by_cases h : k = i
  · subst h; simp [setInPool]
  · simp [setInPool, hupd, h]

theorem setInPoolAll_pool (l : List Nat) (w : World) :
    (setInPoolAll w l).pool = w.pool := by
  induction l generalizing w with
  | nil => rfl
  | cons j rest ih => simpa [setInPoolAll, List.foldl_cons] using ih (setInPool w j true)

theorem setInPoolAll_log (l : List Nat) (w : World) :
    (setInPoolAll w l).log = w.log := by
  induction l generalizing w with
  | nil => rfl
  | cons j rest ih => simpa [setInPoolAll, List.foldl_cons] using ih (setInPool w j true)

theorem setInPoolAll_nextId (l : List Nat) (w : World) :
    (setInPoolAll w l).nextId = w.nextId := by
  induction l generalizing w with
  | nil => rfl
  | cons j rest ih => simpa [setInPoolAll, List.foldl_cons] using ih (setInPool w j true)

theorem setInPoolAll_heap (l : List Nat) (w : World) (k : Nat) :
    (setInPoolAll w l).heap k =
      if k ∈ l then { w.heap k with inPool := true } else w.heap k := by
  induction l generalizing w with
  | nil => simp [setInPoolAll]
  | cons j rest ih =>
      have step : setInPoolAll w (j :: rest) = setInPoolAll (setInPool w j true) rest := by
        simp [setInPoolAll, List.foldl_cons]
      rw [step, ih (setInPool w j true), setInPool_heap]
      by_cases hkr : k ∈ rest
      · by_cases hkj : k = j <;> simp [hkr, hkj]
      · by_cases hkj : k = j <;> simp [hkr, hkj]

/-- C7: `add(action)` returns false and leaves the world untouched (same
membership, same sizes, no back-reference written) when an existing member
shares the action's work identity; otherwise it appends the action, sets its
back-reference, returns true, and the pool grows by exactly one. -/
theorem c7_add_dedup (w : World) (i : Nat) :
    ((w.heap i).func ∈ funcs w → ActionPool.add w i = (w, false)) ∧
    ((w.heap i).func ∉ funcs w →
      (ActionPool.add w i).2 = true ∧
      (ActionPool.add w i).1.pool = w.pool ++ [i] ∧
      ((ActionPool.add w i).1.heap i).inPool = true ∧
      (∀ k, k ≠ i → (ActionPool.add w i).1.heap k = w.heap k) ∧
      (ActionPool.add w i).1.pool.length = w.pool.length + 1) := by
  constructor
  · intro h; simp [ActionPool.add, h]
  · intro h
    refine ⟨by simp [ActionPool.add, h], by simp [ActionPool.add, h], ?_, ?_, ?_⟩
    · simp [ActionPool.add, h, setInPool]
    · intro k hk; simp [ActionPool.add, h, setInPool, hupd, hk]
    · simp [ActionPool.add, h]

theorem c7_add_dedup_witness :
    ActionPool.add cw7 1 = (cw7, false) ∧
    (ActionPool.add cw7 2).2 = true ∧
    (ActionPool.add cw7 2).1.pool = [0, 2] ∧
    ((ActionPool.add cw7 2).1.heap 2).inPool = true ∧
    (ActionPool.add cw7 2).1.pool.length = cw7.pool.length + 1 := by
  have h1 := (c7_add_dedup cw7 1).1 (by decide)
  have h2 := (c7_add_dedup cw7 2).2 (by decide)
  exact ⟨h1, h2.1, by rw [h2.2.1]; rfl, h2.2.2.1, h2.2.2.2.2⟩

/-- C8: an action built with a numeric recurrence interval and no `start`
option is first scheduled at construction time plus the period (the next-time
rule runs at construction with the undefined `lastexectime` replaced by the
current time); with a `start` option the initial schedule is construction
time plus `start` instead. -/
theorem c8_initial_schedule (now p f s : Nat) (tg : Option String) :
    (Action.init now (NextSpec.interval p) f tg none).lastexectime = none ∧
    (Action.init now (NextSpec.interval p) f tg none).time = some (now + p) ∧
    (Action.init now (NextSpec.interval p) f tg (some s)).time = some (now + s) := by
  exact ⟨rfl, rfl, rfl⟩

/-- C3 counterexample: two distinct actions sharing work identity 7, extended
into an empty pool: the claim's "first-seen wins within the input" predicts
one insertion, but the code filters only against pre-existing members and
inserts both (returning 2). -/
theorem c3_counterexample :
    (cw3.heap 0).func = (cw3.heap 1).func ∧
    cw3.pool = [] ∧
    (ActionPool.extend cw3 [0, 1]).2 = 2 ∧
    (ActionPool.extend cw3 [0, 1]).1.pool = [0, 1] := by
  exact ⟨rfl, rfl, rfl, rfl⟩

/-- C3 amended: `extend(actions)` inserts exactly those input actions whose
work identity does not occur among the existing members — duplicates within
the input are *not* filtered against each other — sets the back-reference of
each inserted action, leaves every other action untouched, and returns the
number inserted. -/
theorem c3_extend_members_only (w : World) (ids : List Nat) :
    (ActionPool.extend w ids).2 =
      (ids.filter (fun j => decide ((w.heap j).func ∉ funcs w))).length ∧
    (ActionPool.extend w ids).1.pool =
      w.pool ++ ids.filter (fun j => decide ((w.heap j).func ∉ funcs w)) ∧
    (∀ j, j ∈ ids.filter (fun j => decide ((w.heap j).func ∉ funcs w)) →
      ((ActionPool.extend w ids).1.heap j).inPool = true) ∧
    (∀ j, j ∉ ids.filter (fun j => decide ((w.heap j).func ∉ funcs w)) →
      (ActionPool.extend w ids).1.heap j = w.heap j) := by
  refine ⟨rfl, ?_, ?_, ?_⟩
  · simp [ActionPool.extend, setInPoolAll_pool]
  · intro j hj
    simp only [ActionPool.extend, setInPoolAll_heap, hj, if_pos]
  · intro j hj
    simp only [ActionPool.extend, setInPoolAll_heap]
    rw [if_neg hj]

theorem c3_extend_members_only_witness :
    (ActionPool.extend cw7 [1, 2]).2 = 1 ∧
    (ActionPool.extend cw7 [1, 2]).1.pool = [0, 2] ∧
    ((ActionPool.extend cw7 [1, 2]).1.heap 2).inPool = true ∧
    (ActionPool.extend cw7 [1, 2]).1.heap 1 = cw7.heap 1 := by
  have h := c3_extend_members_only cw7 [1, 2]
  have hf : [1, 2].filter (fun j => decide ((cw7.heap j).func ∉ funcs cw7)) = [2] := by decide
  refine ⟨?_, ?_, ?_, ?_⟩
  · rw [h.1, hf]; rfl
  · rw [h.2.1, hf]; rfl
  · exact h.2.2.1 2 (by rw [hf]; exact List.mem_singleton.mpr rfl)
  · exact h.2.2.2 1 (by rw [hf]; decide)

/-! Order lemmas for the Python-2 three-way comparison on `time` values. -/

theorem pyTimeLt_trans (a b c : Option Nat) (h1 : pyTimeLt a b = true)
    (h2 : pyTimeLt b c = true) : pyTimeLt a c = true := by
  cases a <;> cases b <;> cases c <;> simp [pyTimeLt] at * <;> omega

theorem pyTimeLt_shift (a b c : Option Nat) (h1 : pyTimeLt a b = false)
    (h2 : pyTimeLt a c = true) : pyTimeLt b c = true := by
  cases a <;> cases b <;> cases c <;> simp [pyTimeLt] at * <;> omega

/-- CPython `min` keeps a minimum: the result is one of the scanned elements
and no scanned element is strictly smaller. -/
theorem minByTime_spec (h : Nat → ActionObj) (l : List Nat) (best : Nat) :
    (minByTime h best l = best ∨ minByTime h best l ∈ l) ∧
    pyTimeLt (h best).time (h (minByTime h best l)).time = false ∧
    (∀ x ∈ l, pyTimeLt (h x).time (h (minByTime h best l)).time = false) := by
  induction l generalizing best with
  | nil =>
      refine ⟨Or.inl rfl, ?_, by simp⟩
      cases hb : (h best).time <;> simp [minByTime, pyTimeLt, hb]
  | cons x rest ih =>
      have hstep : minByTime h best (x :: rest) =
          minByTime h (if pyTimeLt (h x).time (h best).time then x else best) rest := rfl
      by_cases hx : pyTimeLt (h x).time (h best).time = true
      · obtain ⟨m1, m2, m3⟩ := ih x
        rw [hstep, if_pos hx] at *
        refine ⟨?_, ?_, ?_⟩
        · rcases m1 with h' | h'
          · exact Or.inr (by rw [h']; exact List.mem_cons_self x rest)
          · exact Or.inr (List.mem_cons_of_mem x h')
        · by_contra hc
          have hbt : pyTimeLt (h best).time (h (minByTime h x rest)).time = true := by
            revert hc; cases pyTimeLt (h best).time (h (minByTime h x rest)).time <;> simp
          exact absurd (pyTimeLt_trans _ _ _ hx hbt) (by rw [m2]; simp)
        · intro y hy
          rcases List.mem_cons.mp hy with rfl | hy'
          · exact m2
          · exact m3 y hy'
      · have hx' : pyTimeLt (h x).time (h best).time = false := by
          revert hx; cases pyTimeLt (h x).time (h best).time <;> simp
        obtain ⟨m1, m2, m3⟩ := ih best
        rw [hstep, if_neg (by rw [hx']; simp)] at *
        refine ⟨?_, m2, ?_⟩
        · rcases m1 with h' | h'
          · exact Or.inl h'
          · exact Or.inr (List.mem_cons_of_mem x h')
        · intro y hy
          rcases List.mem_cons.mp hy with rfl | hy'
          · by_contra hc
            have hyt : pyTimeLt (h y).time (h (minByTime h best rest)).time = true := by
              revert hc; cases pyTimeLt (h y).time (h (minByTime h best rest)).time <;> simp
            exact absurd (pyTimeLt_shift _ _ _ hx' hyt) (by rw [m2]; simp)
          · exact m3 y hy'

/-- C2 counterexample: a non-empty pool whose only member has an undefined
scheduled time.  The claim predicts `next()` returns none; the code computes
`min([])`, which raises a `ValueError`. -/
theorem c2_counterexample :
    cw2.pool = [0] ∧ (cw2.heap 0).time = none ∧
    ActionPool.next cw2 = Except.error () := by
  exact ⟨rfl, rfl, rfl⟩

/-- C2 amended: `next()` returns none exactly for the empty pool; on a
non-empty pool it raises when no member has a defined scheduled time, and
otherwise returns a member carrying the minimum defined scheduled time. -/
theorem c2_next_minimum (w : World) :
    (w.pool = [] → ActionPool.next w = Except.ok none) ∧
    (w.pool ≠ [] →
      w.pool.filter (fun j => decide ((w.heap j).time ≠ none)) = [] →
      ActionPool.next w = Except.error ()) ∧
    (∀ x rest, w.pool.filter (fun j => decide ((w.heap j).time ≠ none)) = x :: rest →
      ∃ m tm, ActionPool.next w = Except.ok (some m) ∧ (m = x ∨ m ∈ rest) ∧
        (w.heap m).time = some tm ∧
        (∀ k ∈ w.pool, ∀ tk, (w.heap k).time = some tk → tm ≤ tk)) := by
  refine ⟨?_, ?_, ?_⟩
  · intro h; simp [ActionPool.next, h]
  · intro h hf
    have hf' : List.filter (fun j => !decide ((w.heap j).time = none)) w.pool = [] := by
      simpa using hf
    simp [ActionPool.next, List.isEmpty_iff, h, hf']
  · intro x rest hf
    have hne : w.pool ≠ [] := by
      intro h0; rw [h0] at hf; simp at hf
    obtain ⟨m1, m2, m3⟩ := minByTime_spec w.heap rest x
    have hres : ActionPool.next w = Except.ok (some (minByTime w.heap x rest)) := by
      have hf' : List.filter (fun j => !decide ((w.heap j).time = none)) w.pool = x :: rest := by
        simpa using hf
      simp [ActionPool.next, List.isEmpty_iff, hne, hf']
    have hmem : minByTime w.heap x rest ∈ x :: rest := by
      rcases m1 with h' | h'
      · rw [h']; exact List.mem_cons_self x rest
      · exact List.mem_cons_of_mem x h'
    have hmf : minByTime w.heap x rest ∈
        w.pool.filter (fun j => decide ((w.heap j).time ≠ none)) := by
      rw [hf]; exact hmem
    have hmt : (w.heap (minByTime w.heap x rest)).time ≠ none := by
      have := List.of_mem_filter hmf
      simpa using this
    obtain ⟨tm, htm⟩ := Option.ne_none_iff_exists'.mp hmt
    refine ⟨minByTime w.heap x rest, tm, hres, m1, htm, ?_⟩
    intro k hk tk htk
    have hkf : k ∈ x :: rest := by
      rw [← hf]; exact List.mem_filter.mpr ⟨hk, by simp [htk]⟩
    have hklt : pyTimeLt (w.heap k).time (w.heap (minByTime w.heap x rest)).time = false := by
      rcases List.mem_cons.mp hkf with rfl | hk'
      · exact m2
      · exact m3 k hk'
    rw [htk, htm] at hklt
    simp [pyTimeLt] at hklt
    exact hklt

theorem c2_next_minimum_witness :
    ActionPool.next cw3 = Except.ok none ∧
    ∃ m tm, ActionPool.next cw7 = Except.ok (some m) ∧ (m = 0 ∨ m ∈ ([] : List Nat)) ∧
      (cw7.heap m).time = some tm ∧
      (∀ k ∈ cw7.pool, ∀ tk, (cw7.heap k).time = some tk → tm ≤ tk) := by
  refine ⟨(c2_next_minimum cw3).1 rfl, ?_⟩
  obtain ⟨m, tm, h1, h2, h3, h4⟩ := (c2_next_minimum cw7).2.2 0 [] (by decide)
  exact ⟨m, tm, h1, h2, h3, h4⟩

/-! Lemmas about the scheduled-time removal scan. -/

theorem except_bind_ok {e a b : Type} (x : a) (f : a → Except e b) :
    Except.bind (Except.ok x) f = f x := rfl

theorem removeScan_nomatch (h : Nat → ActionObj) (i : Nat) (t : Option Nat)
    (l : List Nat)
    (hl : ∀ j ∈ l, j ≠ i ∧ ∃ a b, (h j).time = some a ∧ t = some b ∧ a ≠ b) :
    removeScan h i t l = Except.error PyErr.valueError := by
  induction l with
  | nil => rfl
  | cons j rest ih =>
      obtain ⟨hji, a, b, hja, htb, hab⟩ := hl j (List.mem_cons_self j rest)
      have hrest := ih (fun k hk => hl k (List.mem_cons_of_mem j hk))
      rw [htb] at hrest
      simp [removeScan, hji, hja, htb, hab, hrest, Except.map]

theorem removeScan_found (h : Nat → ActionObj) (i : Nat) (t : Option Nat)
    (p₁ : List Nat) (j : Nat) (p₂ : List Nat)
    (h₁ : ∀ k ∈ p₁, k ≠ i ∧ ∃ a b, (h k).time = some a ∧ t = some b ∧ a ≠ b)
    (hj : j = i ∨ (h j).time = t) :
    removeScan h i t (p₁ ++ j :: p₂) = Except.ok (p₁ ++ p₂) := by
  induction p₁ with
  | nil =>
      by_cases hji : j = i
      · simp [removeScan, hji]
      · rcases hj with hji' | hjt
        · exact absurd hji' hji
        · cases ht : t with
          | none =>
              rw [ht] at hjt
              simp [removeScan, hji, hjt]
          | some b =>
              rw [ht] at hjt
              simp [removeScan, hji, hjt]
  | cons k rest ih =>
      obtain ⟨hki, a, b, hka, htb, hab⟩ := h₁ k (List.mem_cons_self k rest)
      have hrest := ih (fun x hx => h₁ x (List.mem_cons_of_mem k hx))
      rw [htb] at hrest
      simp [removeScan, hki, hka, htb, hab, hrest, Except.map]

theorem removeScan_typeerr (h : Nat → ActionObj) (i : Nat) (t : Option Nat)
    (p₁ : List Nat) (j : Nat) (p₂ : List Nat)
    (h₁ : ∀ k ∈ p₁, k ≠ i ∧ ∃ a b, (h k).time = some a ∧ t = some b ∧ a ≠ b)
    (hji : j ≠ i)
    (hj : ((h j).time = none ∧ t ≠ none) ∨ ((h j).time ≠ none ∧ t = none)) :
    removeScan h i t (p₁ ++ j :: p₂) = Except.error PyErr.typeError := by
  induction p₁ with
  | nil =>
      rcases hj with ⟨hjn, htn⟩ | ⟨hjn, htn⟩
      · obtain ⟨b, hb⟩ := Option.ne_none_iff_exists'.mp htn
        simp [removeScan, hji, hjn, hb]
      · obtain ⟨a, ha⟩ := Option.ne_none_iff_exists'.mp hjn
        simp [removeScan, hji, ha, htn]
  | cons k rest ih =>
      obtain ⟨hki, a, b, hka, htb, hab⟩ := h₁ k (List.mem_cons_self k rest)
      have hrest := ih (fun x hx => h₁ x (List.mem_cons_of_mem k hx))
      rw [htb] at hrest
      simp [removeScan, hki, hka, htb, hab, hrest, Except.map]

/-- C9 counterexample: action 9 is not a member of `cw9`, yet its (concrete)
scheduled time coincides with the members' times, so `remove(9)` does not
raise: `list.remove`'s equality is `Action.__cmp__` (scheduled-time
equality), and the first member (0) is dropped while the argument's
back-reference is cleared. -/
theorem c9_counterexample :
    cw9.pool = [0, 1] ∧
    Except.map World.pool (ActionPool.remove cw9 9) = Except.ok [1] :=
  ⟨rfl, rfl⟩

/-- C9 amended: `remove(action)` scans the member list with `Action.__cmp__`
equality.  While every scanned member is a different object with a concrete
scheduled time different from the argument's concrete one, the scan
continues; the first member matching by identity or by equal scheduled time
(two undefined times also compare equal) is dropped and the *argument's*
back-reference is cleared; an exhausted scan raises a missing-element
`ValueError`; and a scanned member whose time is undefined while the
argument's is concrete (or vice versa) makes the underlying `cmp` raise
`TypeError` — in each raising case before any mutation. -/
theorem c9_remove_eqtime (w : World) (i : Nat) :
    ((∀ j ∈ w.pool, j ≠ i ∧
        ∃ a b, (w.heap j).time = some a ∧ (w.heap i).time = some b ∧ a ≠ b) →
      ActionPool.remove w i = Except.error PyErr.valueError) ∧
    (∀ p₁ j p₂, w.pool = p₁ ++ j :: p₂ →
      (∀ k ∈ p₁, k ≠ i ∧
        ∃ a b, (w.heap k).time = some a ∧ (w.heap i).time = some b ∧ a ≠ b) →
      (j = i ∨ (w.heap j).time = (w.heap i).time) →
      ∃ w', ActionPool.remove w i = Except.ok w' ∧ w'.pool = p₁ ++ p₂ ∧
        (w'.heap i).inPool = false ∧
        w'.heap i = { w.heap i with inPool := false } ∧
        (∀ k, k ≠ i → w'.heap k = w.heap k) ∧
        w'.log = w.log ∧ w'.nextId = w.nextId) ∧
    (∀ p₁ j p₂, w.pool = p₁ ++ j :: p₂ →
      (∀ k ∈ p₁, k ≠ i ∧
        ∃ a b, (w.heap k).time = some a ∧ (w.heap i).time = some b ∧ a ≠ b) →
      j ≠ i →
      (((w.heap j).time = none ∧ (w.heap i).time ≠ none) ∨
        ((w.heap j).time ≠ none ∧ (w.heap i).time = none)) →
      ActionPool.remove w i = Except.error PyErr.typeError) := by
  refine ⟨?_, ?_, ?_⟩
  · intro hl
    simp [ActionPool.remove, removeScan_nomatch w.heap i _ w.pool hl]
  · intro p₁ j p₂ hp h₁ hj
    have hscan : removeScan w.heap i ((w.heap i).time) w.pool =
        Except.ok (p₁ ++ p₂) := by
      rw [hp]
      exact removeScan_found w.heap i _ p₁ j p₂ h₁ hj
    refine ⟨{ setInPool w i false with pool := p₁ ++ p₂ }, ?_, rfl, ?_, ?_, ?_, rfl, rfl⟩
    · simp [ActionPool.remove, hscan]
    · simp [setInPool]
    · simp [setInPool]
    · intro k hk; simp [setInPool, hupd, hk]
  · intro p₁ j p₂ hp h₁ hji hj
    have hscan : removeScan w.heap i ((w.heap i).time) w.pool =
        Except.error PyErr.typeError := by
      rw [hp]
      exact removeScan_typeerr w.heap i _ p₁ j p₂ h₁ hji hj
    simp [ActionPool.remove, hscan]

theorem c9_remove_eqtime_witness :
    ActionPool.remove cw7 2 = Except.error PyErr.valueError ∧
    (∃ w', ActionPool.remove cw9 1 = Except.ok w' ∧ w'.pool = [1] ∧
      (w'.heap 1).inPool = false) ∧
    ActionPool.remove cwM 1 = Except.error PyErr.typeError := by
  refine ⟨?_, ?_, ?_⟩
  · refine (c9_remove_eqtime cw7 2).1 ?_
    intro j hj
    have hj0 : j = 0 := by
      have he : cw7.pool = [0] := rfl
      rw [he] at hj
      simpa using hj
    subst hj0
    exact ⟨by decide, 1, 3, rfl, rfl, by decide⟩
  · obtain ⟨w', h1, h2, h3, _⟩ :=
      (c9_remove_eqtime cw9 1).2.1 [] 0 [1] rfl (by intro k hk; simp at hk) (Or.inr rfl)
    exact ⟨w', h1, by rw [h2]; rfl, h3⟩
  · exact (c9_remove_eqtime cwM 1).2.2 [] 0 [] rfl (by intro k hk; simp at hk)
      (by decide) (Or.inl ⟨rfl, by decide⟩)

/-- Scanning helper: `find?` hits the first satisfying element. -/
theorem find?_first {α : Type} (p : α → Bool) (l : List α) (a : α)
    (h : l.find? p = some a) :
    ∃ l₁ l₂, l = l₁ ++ a :: l₂ ∧ ∀ x ∈ l₁, p x = false := by
  induction l with
  | nil => simp [List.find?] at h
  | cons x rest ih =>
      by_cases hx : p x = true
      · rw [List.find?_cons_of_pos _ hx] at h
        exact ⟨[], rest, by rw [Option.some.inj h]; rfl, by simp⟩
      · have hx' : p x = false := by revert hx; cases p x <;> simp
        rw [List.find?_cons_of_neg _ (by simp [hx'])] at h
        obtain ⟨l₁, l₂, hl, hl₁⟩ := ih h
        refine ⟨x :: l₁, l₂, by simp [hl], ?_⟩
        intro y hy
        rcases List.mem_cons.mp hy with rfl | hy'
        · exact hx'
        · exact hl₁ y hy'

/-- C10: `get(None)` routes the non-callable identifier `None` to the tag
field; an action constructed without a tag carries tag `None`, so the lookup
returns the first untagged member and `has(None)` is true. -/
theorem c10_get_none (w : World) (j0 : Nat) (hj : j0 ∈ w.pool)
    (ht : (w.heap j0).tag = none) :
    (∀ now nt f st, (Action.init now nt f none st).tag = none) ∧
    ActionPool.has w (Ident.tagv none) = true ∧
    ∃ j p₁ p₂, ActionPool.get w (Ident.tagv none) = some j ∧
      (w.heap j).tag = none ∧ w.pool = p₁ ++ j :: p₂ ∧
      ∀ k ∈ p₁, (w.heap k).tag ≠ none := by
  have hsome : (w.pool.find? (fun j => decide ((w.heap j).tag = none))).isSome := by
    rw [List.find?_isSome]
    exact ⟨j0, hj, by simp [ht]⟩
  obtain ⟨j, hfind⟩ := Option.isSome_iff_exists.mp hsome
  have hjt : (w.heap j).tag = none := by
    have := List.find?_some hfind
    simpa using this
  obtain ⟨p₁, p₂, hsplitp, hfail⟩ := find?_first _ _ _ hfind
  refine ⟨?_, ?_, j, p₁, p₂, hfind, hjt, hsplitp, ?_⟩
  · intro now nt f st
    cases nt <;> cases st <;> rfl
  · simp [ActionPool.has, ActionPool.get, getIn, hfind]
  · intro k hk
    have := hfail k hk
    simpa using this

theorem c10_get_none_witness :
    ActionPool.has cw10 (Ident.tagv none) = true ∧
    ∃ j p₁ p₂, ActionPool.get cw10 (Ident.tagv none) = some j ∧
      (cw10.heap j).tag = none ∧ cw10.pool = p₁ ++ j :: p₂ ∧
      ∀ k ∈ p₁, (cw10.heap k).tag ≠ none := by
  obtain ⟨_, h2, h3⟩ := c10_get_none cw10 1 (by decide) (by decide)
  exact ⟨h2, h3⟩

/-- C4: base `invoke()` stamps `lastexectime` with the invocation *start*
time before running the work; on success a period-based action is rescheduled
at that start time plus the period (not at the finish time), a custom
next-time function dictates the new time itself (evaluated when the work
returns); on failure the schedule becomes now + 600 and an error-level event
is logged. -/
theorem c4_base_invoke (w : World) (i t d : Nat) (r : Int) :
    ((Action.call w i t d r).heap i).lastexectime = some t ∧
    (r ≠ 0 → (w.heap i).nextRule = NextRule.defaultNext →
      ((Action.call w i t d r).heap i).time = some (t + (w.heap i).period)) ∧
    (∀ fc, r ≠ 0 → (w.heap i).nextRule = NextRule.custom fc →
      ((Action.call w i t d r).heap i).time = fc (t + d)) ∧
    (r = 0 →
      ((Action.call w i t d r).heap i).time = some (t + d + 600) ∧
      LogEntry.err ((w.heap i).func) ∈ (Action.call w i t d r).log) := by
  refine ⟨?_, ?_, ?_, ?_⟩
  · by_cases hr : r = 0
    · simp [Action.call, hr, Action.delay, setLastExec, logI, logE, hupd]
    · simp [Action.call, hr, Action.next, setLastExec, logI, hupd]
  · intro hr hd
    simp [Action.call, hr, Action.next, setLastExec, logI, hupd, nextVal, hd]
  · intro fc hr hd
    simp [Action.call, hr, Action.next, setLastExec, logI, hupd, nextVal, hd]
  · intro hr
    constructor
    · simp [Action.call, hr, Action.delay, setLastExec, logI, logE, hupd]
    · simp [Action.call, hr, Action.delay, setLastExec, logI, logE, hupd]

theorem c4_base_invoke_witness :
    ((Action.call cw4 0 100 2 1).heap 0).lastexectime = some 100 ∧
    ((Action.call cw4 0 100 2 1).heap 0).time = some 130 ∧
    ((Action.call cw4 0 100 2 0).heap 0).time = some 702 ∧
    LogEntry.err 8 ∈ (Action.call cw4 0 100 2 0).log := by
  have h1 := c4_base_invoke cw4 0 100 2 1
  have h0 := c4_base_invoke cw4 0 100 2 0
  refine ⟨h1.1, ?_, ?_, (h0.2.2.2 rfl).2⟩
  · have hd := h1.2.1 (by decide) rfl
    exact hd.trans rfl
  · have hd := (h0.2.2.2 rfl).1
    exact hd.trans rfl

/-- C5: step `invoke()` runs the work first and stamps `lastexectime` with
the *finish* time afterwards; a `Partial` result (-1) reschedules at now plus
the step interval (whose constructor default is 600), a `Success` result (1)
applies the normal next-time rule, and any other result applies the fixed
600-second delay and logs an error-level event. -/
theorem c5_step_invoke (w : World) (i t d : Nat) (r : Int) :
    (∀ now nt f tg st, (StepAction.init now nt f tg st none).step = 600) ∧
    ((StepAction.call w i t d r).heap i).lastexectime = some (t + d) ∧
    (r = -1 → ((StepAction.call w i t d r).heap i).time =
      some (t + d + (w.heap i).step)) ∧
    (r = 1 → ((StepAction.call w i t d r).heap i).time =
      nextVal { w.heap i with lastexectime := some (t + d) } (t + d)) ∧
    (r ≠ -1 → r ≠ 1 →
      ((StepAction.call w i t d r).heap i).time = some (t + d + 600) ∧
      LogEntry.err ((w.heap i).func) ∈ (StepAction.call w i t d r).log) := by
  refine ⟨?_, ?_, ?_, ?_, ?_⟩
  · intro now nt f tg st
    cases nt <;> cases st <;> rfl
  · by_cases h1 : r = -1
    · simp [StepAction.call, h1, setLastExec, logI, hupd]
    · by_cases h2 : r = 1
      · simp [StepAction.call, h1, h2, Action.next, setLastExec, logI, hupd]
      · simp [StepAction.call, h1, h2, Action.delay, setLastExec, logI, logE, hupd]
  · intro h1
    simp [StepAction.call, h1, setLastExec, logI, hupd]
  · intro h1
    simp [StepAction.call, h1, Action.next, setLastExec, logI, hupd]
  · intro h1 h2
    constructor
    · simp [StepAction.call, h1, h2, Action.delay, setLastExec, logI, logE, hupd]
    · simp [StepAction.call, h1, h2, Action.delay, setLastExec, logI, logE, hupd]

theorem c5_step_invoke_witness :
    ((StepAction.call cw5 0 100 2 (-1)).heap 0).lastexectime = some 102 ∧
    ((StepAction.call cw5 0 100 2 (-1)).heap 0).time = some 147 ∧
    ((StepAction.call cw5 0 100 2 1).heap 0).time = some 132 ∧
    ((StepAction.call cw5 0 100 2 5).heap 0).time = some 702 ∧
    LogEntry.err 8 ∈ (StepAction.call cw5 0 100 2 5).log := by
  have hp := c5_step_invoke cw5 0 100 2 (-1)
  have hs := c5_step_invoke cw5 0 100 2 1
  have hf := c5_step_invoke cw5 0 100 2 5
  refine ⟨hp.2.1, ?_, ?_, ?_, (hf.2.2.2.2 (by decide) (by decide)).2⟩
  · have hd := hp.2.2.1 rfl
    exact hd.trans rfl
  · have hd := hs.2.2.2.1 rfl
    exact hd.trans rfl
  · have hd := (hf.2.2.2.2 (by decide) (by decide)).1
    exact hd.trans rfl

/-- C6: a one-time action's failure path reschedules through its own normal
next-time rule (evaluated after the work returns, with `lastexectime` already
stamped with the start time), not through the fixed 600-second backoff the
base action uses; whenever that rule yields something other than now + 600,
the resulting schedule differs from the base action's failure schedule under
the identical configuration. -/
theorem c6_onetime_failure (w : World) (i t d : Nat) :
    ∃ w', OneTimeAction.call w i t d 0 = Except.ok w' ∧
      (w'.heap i).time = nextVal { w.heap i with lastexectime := some t } (t + d) ∧
      (w'.heap i).lastexectime = some t ∧
      w'.pool = w.pool ∧
      ((Action.call w i t d 0).heap i).time = some (t + d + 600) ∧
      (nextVal { w.heap i with lastexectime := some t } (t + d) ≠ some (t + d + 600) →
        (w'.heap i).time ≠ ((Action.call w i t d 0).heap i).time) := by
  have hcall : OneTimeAction.call w i t d 0 =
      Except.ok (Action.next (setLastExec (logI w ((w.heap i).func)) i t) i (t + d)) := by
    simp [OneTimeAction.call]
  have hbase : ((Action.call w i t d 0).heap i).time = some (t + d + 600) := by
    simp [Action.call, Action.delay, setLastExec, logI, logE, hupd]
  refine ⟨Action.next (setLastExec (logI w ((w.heap i).func)) i t) i (t + d),
    hcall, ?_, ?_, rfl, hbase, ?_⟩
  · simp [Action.next, setLastExec, logI, hupd]
  · simp [Action.next, setLastExec, logI, hupd]
  · intro hne
    have h2 : ((Action.next (setLastExec (logI w ((w.heap i).func)) i t) i (t + d)).heap i).time =
        nextVal { w.heap i with lastexectime := some t } (t + d) := by
      simp [Action.next, setLastExec, logI, hupd]
    rw [h2, hbase]
    exact hne

theorem c6_onetime_failure_witness :
    ∃ w', OneTimeAction.call cwB 1 100 2 0 = Except.ok w' ∧
      (w'.heap 1).time = nextVal { cwB.heap 1 with lastexectime := some 100 } (100 + 2) ∧
      ((Action.call cwB 1 100 2 0).heap 1).time = some (100 + 2 + 600) ∧
      (w'.heap 1).time ≠ ((Action.call cwB 1 100 2 0).heap 1).time := by
  obtain ⟨w', h1, h2, h3, h4, h5, h6⟩ := c6_onetime_failure cwB 1 100 2
  exact ⟨w', h1, h2, h5, h6 (by decide)⟩

/-! Machinery for the one-time success path: heap-shape stability. -/

theorem inPoolOnly_refl (h : Nat → ActionObj) : inPoolOnly h h := by
  intro k
  exact ⟨(h k).inPool, rfl⟩

theorem inPoolOnly_trans (h1 h2 h3 : Nat → ActionObj)
    (a : inPoolOnly h1 h2) (b : inPoolOnly h2 h3) : inPoolOnly h1 h3 := by
  intro k
  obtain ⟨b1, e1⟩ := a k
  obtain ⟨b2, e2⟩ := b k
  exact ⟨b2, by rw [e2, e1]⟩

theorem inPoolOnly_setInPool (w : World) (i : Nat) (b : Bool) :
    inPoolOnly w.heap (setInPool w i b).heap := by
  intro k
  rw [setInPool_heap]
  by_cases hk : k = i
  · exact ⟨b, by simp [hk]⟩
  · exact ⟨(w.heap k).inPool, by simp [hk]⟩

theorem inPoolOnly.time_eq {h1 h2 : Nat → ActionObj} (h : inPoolOnly h1 h2)
    (k : Nat) : (h2 k).time = (h1 k).time := by
  obtain ⟨b, e⟩ := h k
  rw [e]

theorem inPoolOnly.func_eq {h1 h2 : Nat → ActionObj} (h : inPoolOnly h1 h2)
    (k : Nat) : (h2 k).func = (h1 k).func := by
  obtain ⟨b, e⟩ := h k
  rw [e]

theorem inPoolOnly.tag_eq {h1 h2 : Nat → ActionObj} (h : inPoolOnly h1 h2)
    (k : Nat) : (h2 k).tag = (h1 k).tag := by
  obtain ⟨b, e⟩ := h k
  rw [e]

theorem inPoolOnly.cancel_eq {h1 h2 : Nat → ActionObj} (h : inPoolOnly h1 h2)
    (k : Nat) : (h2 k).cancel = (h1 k).cancel := by
  obtain ⟨b, e⟩ := h k
  rw [e]

theorem inPoolOnly.followers_eq {h1 h2 : Nat → ActionObj} (h : inPoolOnly h1 h2)
    (k : Nat) : (h2 k).followers = (h1 k).followers := by
  obtain ⟨b, e⟩ := h k
  rw [e]

theorem find?_congrP {α : Type} (p q : α → Bool) (l : List α)
    (h : ∀ a ∈ l, p a = q a) : l.find? p = l.find? q := by
  induction l with
  | nil => rfl
  | cons a rest ih =>
      have ha := h a (List.mem_cons_self a rest)
      have hrest := ih (fun x hx => h x (List.mem_cons_of_mem a hx))
      rw [List.find?_cons, List.find?_cons, ha, hrest]

theorem getIn_congr (h1 h2 : Nat → ActionObj) (p : List Nat) (q : Ident)
    (hf : ∀ k, (h2 k).func = (h1 k).func) (ht : ∀ k, (h2 k).tag = (h1 k).tag) :
    getIn h2 p q = getIn h1 p q := by
  cases q with
  | func f =>
      simp only [getIn]
      exact find?_congrP _ _ p (fun k _ => by rw [hf k])
  | tagv t =>
      simp only [getIn]
      exact find?_congrP _ _ p (fun k _ => by rw [ht k])

theorem resolveC_congr (h1 h2 : Nat → ActionObj) (p : List Nat) (c : CancelItem)
    (hf : ∀ k, (h2 k).func = (h1 k).func) (ht : ∀ k, (h2 k).tag = (h1 k).tag) :
    resolveC h2 p c = resolveC h1 p c := by
  cases c with
  | ref j => rfl
  | ident q => simpa [resolveC] using getIn_congr h1 h2 p q hf ht

theorem targetsOf_congr (h1 h2 : Nat → ActionObj) (p : List Nat)
    (cs : List CancelItem)
    (hf : ∀ k, (h2 k).func = (h1 k).func) (ht : ∀ k, (h2 k).tag = (h1 k).tag) :
    targetsOf h2 p cs = targetsOf h1 p cs := by
  simp only [targetsOf]
  exact List.filterMap_congr (fun c _ => resolveC_congr h1 h2 p c hf ht)

theorem TimesDistinct_congr (h1 h2 : Nat → ActionObj) (p : List Nat)
    (ht : ∀ k, (h2 k).time = (h1 k).time) (hd : TimesDistinct h1 p) :
    TimesDistinct h2 p := by
  refine List.Pairwise.imp ?_ hd
  intro j k hjk
  rw [ht j, ht k]
  exact hjk

theorem TimesDistinct.sublist {h : Nat → ActionObj} {p q : List Nat}
    (hs : q.Sublist p) (hd : TimesDistinct h p) : TimesDistinct h q :=
  List.Pairwise.sublist hs hd

theorem TimesDistinct.nodup {h : Nat → ActionObj} {p : List Nat}
    (hd : TimesDistinct h p) : p.Nodup := by
  refine List.Pairwise.imp ?_ hd
  intro j k hjk
  intro e
  exact hjk (by rw [e])

/-! Exact removal: with pairwise-distinct and everywhere-defined scheduled
times, the removal scan removes exactly the requested member (no `TypeError`
is reachable, since every comparison is between concrete timestamps). -/

theorem removeScan_eq_erase (h : Nat → ActionObj) (p : List Nat) (j : Nat)
    (hd : TimesDistinct h p) (hdef : ∀ k ∈ p, (h k).time ≠ none) (hj : j ∈ p) :
    removeScan h j ((h j).time) p = Except.ok (p.erase j) := by
  induction p with
  | nil => cases hj
  | cons a rest ih =>
      have hd2 : (∀ k ∈ rest, (h a).time ≠ (h k).time) ∧ TimesDistinct h rest :=
        List.pairwise_cons.mp hd
      rcases List.mem_cons.mp hj with rfl | hjr
      · simp [removeScan, List.erase_cons_head]
      · have haj : a ≠ j := by
          intro e
          exact (hd2.1 j hjr) (by rw [e])
        obtain ⟨x, hx⟩ := Option.ne_none_iff_exists'.mp
          (hdef a (List.mem_cons_self a rest))
        obtain ⟨y, hy⟩ := Option.ne_none_iff_exists'.mp
          (hdef j (List.mem_cons_of_mem a hjr))
        have hxy : x ≠ y := by
          intro e
          exact (hd2.1 j hjr) (by rw [hx, hy, e])
        have hrec := ih hd2.2 (fun k hk => hdef k (List.mem_cons_of_mem a hk)) hjr
        rw [hy] at hrec
        have herase : (a :: rest).erase j = a :: rest.erase j :=
          List.erase_cons_tail (by simp [haj])
        rw [herase]
        simp [removeScan, haj, hx, hy, hxy, hrec, Except.map]

theorem remove_exact (w : World) (j : Nat)
    (hd : TimesDistinct w.heap w.pool)
    (hdef : ∀ k ∈ w.pool, (w.heap k).time ≠ none) (hj : j ∈ w.pool) :
    ActionPool.remove w j =
      Except.ok { setInPool w j false with pool := w.pool.erase j } := by
  simp [ActionPool.remove, removeScan_eq_erase w.heap w.pool j hd hdef hj]

/-- Erasing an element other than the hit leaves `find?` results intact. -/
theorem find?_erase_of_ne {α : Type} [DecidableEq α] (p : α → Bool)
    (l : List α) (m j : α) (h : l.find? p = some m) (hne : m ≠ j) :
    (l.erase j).find? p = some m := by
  induction l with
  | nil => simp [List.find?] at h
  | cons a rest ih =>
      by_cases ha : p a = true
      · rw [List.find?_cons_of_pos _ ha] at h
        have ham : a = m := Option.some.inj h
        have haj : a ≠ j := by rw [ham]; exact hne
        rw [List.erase_cons_tail (by simp [haj])]
        rw [List.find?_cons_of_pos _ (by rw [ham] at ha; rw [ham]; exact ha)]
        rw [ham]
      · have ha' : ¬ p a = true := ha
        rw [List.find?_cons_of_neg _ ha'] at h
        by_cases haj : a = j
        · rw [haj, List.erase_cons_head]
          exact h
        · rw [List.erase_cons_tail (by simp [haj])]
          rw [List.find?_cons_of_neg _ ha']
          exact ih h

theorem find?_erase_of_none {α : Type} [DecidableEq α] (p : α → Bool)
    (l : List α) (j : α) (h : l.find? p = none) :
    (l.erase j).find? p = none := by
  rw [List.find?_eq_none] at *
  intro x hx
  exact h x (List.mem_of_mem_erase hx)

/-- Resolution of a cancel entry is unchanged by erasing a non-hit member. -/
theorem resolveC_erase (h : Nat → ActionObj) (p : List Nat) (j : Nat)
    (c : CancelItem) (hne : resolveC h p c ≠ some j) :
    resolveC h (p.erase j) c = resolveC h p c := by
  cases c with
  | ref a => rfl
  | ident q =>
      cases q with
      | func f =>
          simp only [resolveC, getIn] at *
          cases hf : p.find? (fun k => decide ((h k).func = f)) with
          | none => exact find?_erase_of_none _ p j hf
          | some m =>
              rw [hf] at hne
              exact find?_erase_of_ne _ p m j hf (fun e => hne (by rw [e]))
      | tagv tv =>
          simp only [resolveC, getIn] at *
          cases hf : p.find? (fun k => decide ((h k).tag = tv)) with
          | none => exact find?_erase_of_none _ p j hf
          | some m =>
              rw [hf] at hne
              exact find?_erase_of_ne _ p m j hf (fun e => hne (by rw [e]))

theorem targetsOf_erase (h : Nat → ActionObj) (p : List Nat) (j : Nat)
    (cs : List CancelItem) (hne : ∀ c ∈ cs, resolveC h p c ≠ some j) :
    targetsOf h (p.erase j) cs = targetsOf h p cs := by
  simp only [targetsOf]
  exact List.filterMap_congr (fun c hc => resolveC_erase h p j c (hne c hc))

theorem mem_targetsOf {h : Nat → ActionObj} {p : List Nat}
    {cs : List CancelItem} {c : CancelItem} {m : Nat}
    (hc : c ∈ cs) (hr : resolveC h p c = some m) : m ∈ targetsOf h p cs := by
  simp only [targetsOf]
  exact List.mem_filterMap.mpr ⟨c, hc, hr⟩

theorem targetsOf_mem_pool (h : Nat → ActionObj) (p : List Nat)
    (cs : List CancelItem) (href : ∀ j, CancelItem.ref j ∈ cs → j ∈ p) :
    ∀ m ∈ targetsOf h p cs, m ∈ p := by
  intro m hm
  simp only [targetsOf] at hm
  obtain ⟨c, hc, hr⟩ := List.mem_filterMap.mp hm
  cases c with
  | ref a =>
      have : a = m := Option.some.inj hr
      rw [← this]
      exact href a hc
  | ident q =>
      simp only [resolveC, getIn] at hr
      cases q with
      | func f => exact List.mem_of_find?_eq_some hr
      | tagv tv => exact List.mem_of_find?_eq_some hr

theorem foldl_erase_sublist (ts : List Nat) (p : List Nat) :
    (ts.foldl List.erase p).Sublist p := by
  induction ts generalizing p with
  | nil => exact List.Sublist.refl p
  | cons t rest ih =>
      exact (ih (p.erase t)).trans (List.erase_sublist t p)

/-- Cancellation loop: with pairwise-distinct and everywhere-defined member
times, no duplicate resolved targets and every directly referenced target
present, the loop removes exactly the resolved targets (misses skipped) and
touches nothing but `inPool` flags. -/
theorem cancelFold_spec (cs : List CancelItem) (w : World)
    (hdt : TimesDistinct w.heap w.pool)
    (hdef : ∀ k ∈ w.pool, (w.heap k).time ≠ none)
    (hnd : (targetsOf w.heap w.pool cs).Nodup)
    (href : ∀ j, CancelItem.ref j ∈ cs → j ∈ w.pool) :
    ∃ w2, cancelFold w cs = Except.ok w2 ∧
      w2.pool = (targetsOf w.heap w.pool cs).foldl List.erase w.pool ∧
      inPoolOnly w.heap w2.heap ∧
      (∀ j ∈ targetsOf w.heap w.pool cs, j ∉ w2.pool) ∧
      w2.nextId = w.nextId ∧ w2.log = w.log := by
  induction cs generalizing w with
  | nil =>
      refine ⟨w, rfl, rfl, inPoolOnly_refl w.heap, ?_, rfl, rfl⟩
      simp [targetsOf]
  | cons c cs' ih =>
      cases hres : resolveC w.heap w.pool c with
      | none =>
          cases c with
          | ref a => simp [resolveC] at hres
          | ident q =>
              have hget : getIn w.heap w.pool q = none := hres
              have htc : targetsOf w.heap w.pool (CancelItem.ident q :: cs') =
                  targetsOf w.heap w.pool cs' := by
                simp [targetsOf, List.filterMap_cons, resolveC, hget]
              rw [htc] at hnd
              obtain ⟨w2, he, hp, hio, hm, hn, hl⟩ := ih w hdt hdef hnd
                (fun j hj => href j (List.mem_cons_of_mem _ hj))
              refine ⟨w2, ?_, by rw [htc]; exact hp, hio, by rw [htc]; exact hm, hn, hl⟩
              simpa [cancelFold, cancelStep, ActionPool.get, hget, except_bind_ok]
                using he
      | some m =>
          have hmT : m ∈ targetsOf w.heap w.pool (c :: cs') :=
            mem_targetsOf (List.mem_cons_self c cs') hres
          have hmemP : m ∈ w.pool :=
            targetsOf_mem_pool w.heap w.pool (c :: cs') href m hmT
          have htc : targetsOf w.heap w.pool (c :: cs') =
              m :: targetsOf w.heap w.pool cs' := by
            simp [targetsOf, List.filterMap_cons, hres]
          have hrem : ActionPool.remove w m =
              Except.ok { setInPool w m false with pool := w.pool.erase m } :=
            remove_exact w m hdt hdef hmemP
          have hstep : cancelStep w c = ActionPool.remove w m := by
            cases c with
            | ref a =>
                have : a = m := Option.some.inj hres
                rw [← this]; rfl
            | ident q =>
                have hget : getIn w.heap w.pool q = some m := hres
                simp [cancelStep, ActionPool.get, hget]
          set w1 : World := { setInPool w m false with pool := w.pool.erase m } with hw1
          have hioN : inPoolOnly w.heap w1.heap := inPoolOnly_setInPool w m false
          rw [htc] at hnd
          have hmnotT : m ∉ targetsOf w.heap w.pool cs' := (List.nodup_cons.mp hnd).1
          have hndT : (targetsOf w.heap w.pool cs').Nodup := (List.nodup_cons.mp hnd).2
          have hne : ∀ c' ∈ cs', resolveC w.heap w.pool c' ≠ some m := by
            intro c' hc' he
            exact hmnotT (mem_targetsOf hc' he)
          have hT1 : targetsOf w1.heap w1.pool cs' = targetsOf w.heap w.pool cs' := by
            have h1 : targetsOf w1.heap (w.pool.erase m) cs' =
                targetsOf w.heap (w.pool.erase m) cs' :=
              targetsOf_congr w.heap w1.heap (w.pool.erase m) cs'
                (fun k => hioN.func_eq k) (fun k => hioN.tag_eq k)
            have h2 : targetsOf w.heap (w.pool.erase m) cs' =
                targetsOf w.heap w.pool cs' :=
              targetsOf_erase w.heap w.pool m cs' hne
            exact h1.trans h2
          have hdt1 : TimesDistinct w1.heap w1.pool := by
            refine TimesDistinct_congr w.heap w1.heap (w.pool.erase m)
              (fun k => hioN.time_eq k) ?_
            exact hdt.sublist (List.erase_sublist m w.pool)
          have hdef1 : ∀ k ∈ w1.pool, (w1.heap k).time ≠ none := by
            intro k hk
            rw [hioN.time_eq k]
            exact hdef k (List.erase_subset m w.pool hk)
          have href1 : ∀ j, CancelItem.ref j ∈ cs' → j ∈ w1.pool := by
            intro j hj
            have hjP : j ∈ w.pool := href j (List.mem_cons_of_mem _ hj)
            have hjT : j ∈ targetsOf w.heap w.pool cs' := mem_targetsOf hj rfl
            have hjm : j ≠ m := fun e => hmnotT (e ▸ hjT)
            exact (List.mem_erase_of_ne hjm).mpr hjP
          obtain ⟨w2, he, hp, hio, hm, hn, hl⟩ :=
            ih w1 hdt1 hdef1 (by rw [hT1]; exact hndT) href1
          have hfold : cancelFold w (c :: cs') = Except.ok w2 := by
            have : cancelFold w (c :: cs') = Except.bind (cancelStep w c)
                (fun x => cancelFold x cs') := rfl
            rw [this, hstep, hrem]
            simp only [except_bind_ok]
            exact he
          refine ⟨w2, hfold, ?_, inPoolOnly_trans _ _ _ hioN hio, ?_, hn, hl⟩
          · rw [htc, List.foldl_cons, hp, hT1]
          · rw [htc]
            intro j hj
            rcases List.mem_cons.mp hj with rfl | hj'
            · intro hjw2
              have hsub : w2.pool.Sublist (w.pool.erase j) := by
                rw [hp, hT1]
                exact foldl_erase_sublist _ _
              have : j ∈ w.pool.erase j := hsub.subset hjw2
              have := ((hdt.nodup).mem_erase_iff).mp this
              exact this.1 rfl
            · rw [← hT1] at hj'
              exact hm j hj'

/-! Properties of the follower materialization pass. -/

theorem growAll_nextId_le (fl : List FollowerItem) (w : World) (now : Nat) :
    w.nextId ≤ (growAll w now fl).1.nextId := by
  induction fl generalizing w with
  | nil => exact Nat.le_refl _
  | cons f fs ih =>
      cases f with
      | ref a => simpa [growAll, growOne] using ih w
      | seed cls nt fc tg st fo ca sk =>
          have h1 : w.nextId + 1 ≤ (growAll { w with
              heap := hupd w.heap w.nextId (growSeed now cls nt fc tg st fo ca sk),
              nextId := w.nextId + 1 } now fs).1.nextId := ih { w with
              heap := hupd w.heap w.nextId (growSeed now cls nt fc tg st fo ca sk),
              nextId := w.nextId + 1 }
          simp only [growAll, growOne]
          omega

theorem growAll_heap_lt (fl : List FollowerItem) (w : World) (now : Nat)
    (k : Nat) (hk : k < w.nextId) :
    (growAll w now fl).1.heap k = w.heap k := by
  induction fl generalizing w with
  | nil => rfl
  | cons f fs ih =>
      cases f with
      | ref a => simpa [growAll, growOne] using ih w hk
      | seed cls nt fc tg st fo ca sk =>
          have h1 := ih { w with
            heap := hupd w.heap w.nextId (growSeed now cls nt fc tg st fo ca sk),
            nextId := w.nextId + 1 } (show k < w.nextId + 1 by omega)
          simp only [growAll, growOne] at *
          rw [h1]
          exact hupd_other _ _ _ _ (by omega)

theorem growAll_pool (fl : List FollowerItem) (w : World) (now : Nat) :
    (growAll w now fl).1.pool = w.pool := by
  induction fl generalizing w with
  | nil => rfl
  | cons f fs ih =>
      cases f with
      | ref a => simpa [growAll, growOne] using ih w
      | seed cls nt fc tg st fo ca sk =>
          simpa [growAll, growOne] using ih _

theorem growAll_log (fl : List FollowerItem) (w : World) (now : Nat) :
    (growAll w now fl).1.log = w.log := by
  induction fl generalizing w with
  | nil => rfl
  | cons f fs ih =>
      cases f with
      | ref a => simpa [growAll, growOne] using ih w
      | seed cls nt fc tg st fo ca sk =>
          simpa [growAll, growOne] using ih _

theorem growAll_length (fl : List FollowerItem) (w : World) (now : Nat) :
    (growAll w now fl).2.length = fl.length := by
  induction fl generalizing w with
  | nil => rfl
  | cons f fs ih =>
      cases f with
      | ref a => simpa [growAll, growOne] using ih w
      | seed cls nt fc tg st fo ca sk =>
          simpa [growAll, growOne] using ih _

theorem growAll_ref_get (fl : List FollowerItem) (w : World) (now : Nat)
    (n a : Nat) (h : fl.get? n = some (FollowerItem.ref a)) :
    (growAll w now fl).2.get? n = some a := by
  induction fl generalizing w n with
  | nil => simp at h
  | cons f fs ih =>
      cases n with
      | zero =>
          have hf : f = FollowerItem.ref a := by simpa using h
          subst hf
          simp [growAll, growOne]
      | succ n' =>
          have h' : fs.get? n' = some (FollowerItem.ref a) := by simpa using h
          cases f with
          | ref b => simpa [growAll, growOne] using ih w n' h'
          | seed cls nt fc tg st fo ca sk =>
              simpa [growAll, growOne] using ih _ n' h'

theorem growAll_seed_get (fl : List FollowerItem) (w : World) (now : Nat)
    (n : Nat) (cls : Variant) (nt : NextSpec) (f : Nat) (tg : Option String)
    (st : Option Nat) (fo : List FollowerItem) (ca : List CancelItem)
    (sk : Option Nat)
    (h : fl.get? n = some (FollowerItem.seed cls nt f tg st fo ca sk)) :
    ∃ g, (growAll w now fl).2.get? n = some g ∧ w.nextId ≤ g ∧
      g < (growAll w now fl).1.nextId ∧
      (growAll w now fl).1.heap g = growSeed now cls nt f tg st fo ca sk := by
  induction fl generalizing w n with
  | nil => simp at h
  | cons hf fs ih =>
      cases n with
      | zero =>
          have hf' : hf = FollowerItem.seed cls nt f tg st fo ca sk := by simpa using h
          subst hf'
          refine ⟨w.nextId, ?_, Nat.le_refl _, ?_, ?_⟩
          · simp [growAll, growOne]
          · have := growAll_nextId_le fs { w with
              heap := hupd w.heap w.nextId (growSeed now cls nt f tg st fo ca sk),
              nextId := w.nextId + 1 } now
            simp only [growAll, growOne]
            simp only at this
            omega
          · have h2 := growAll_heap_lt fs { w with
              heap := hupd w.heap w.nextId (growSeed now cls nt f tg st fo ca sk),
              nextId := w.nextId + 1 } now w.nextId (by simp)
            simp only [growAll, growOne]
            rw [h2]
            simp
      | succ n' =>
          have h' : fs.get? n' = some (FollowerItem.seed cls nt f tg st fo ca sk) := by
            simpa using h
          cases hf with
          | ref b =>
              obtain ⟨g, h1, h2, h3, h4⟩ := ih w n' h'
              exact ⟨g, by simpa [growAll, growOne] using h1, h2,
                by simpa [growAll, growOne] using h3,
                by simpa [growAll, growOne] using h4⟩
          | seed cls2 nt2 f2 tg2 st2 fo2 ca2 sk2 =>
              obtain ⟨g, h1, h2, h3, h4⟩ := ih { w with
                heap := hupd w.heap w.nextId (growSeed now cls2 nt2 f2 tg2 st2 fo2 ca2 sk2),
                nextId := w.nextId + 1 } n' h'
              refine ⟨g, by simpa [growAll, growOne] using h1, ?_,
                by simpa [growAll, growOne] using h3,
                by simpa [growAll, growOne] using h4⟩
              simp only at h2
              omega

theorem growAll_mem (fl : List FollowerItem) (w : World) (now : Nat) :
    ∀ g ∈ (growAll w now fl).2,
      FollowerItem.ref g ∈ fl ∨
      (w.nextId ≤ g ∧ g < (growAll w now fl).1.nextId) := by
  induction fl generalizing w with
  | nil => simp [growAll]
  | cons f fs ih =>
      intro g hg
      cases f with
      | ref a =>
          have hg' : g = a ∨ g ∈ (growAll w now fs).2 := by
            simpa [growAll, growOne] using hg
          rcases hg' with rfl | hg2
          · exact Or.inl (List.mem_cons_self _ _)
          · rcases ih w g hg2 with hl | hr
            · exact Or.inl (List.mem_cons_of_mem _ hl)
            · refine Or.inr ⟨hr.1, ?_⟩
              simpa [growAll, growOne] using hr.2
      | seed cls nt fc tg st fo ca sk =>
          have hg' : g = w.nextId ∨ g ∈ (growAll { w with
              heap := hupd w.heap w.nextId (growSeed now cls nt fc tg st fo ca sk),
              nextId := w.nextId + 1 } now fs).2 := by
            simpa [growAll, growOne] using hg
          have hle : w.nextId + 1 ≤ (growAll { w with
              heap := hupd w.heap w.nextId (growSeed now cls nt fc tg st fo ca sk),
              nextId := w.nextId + 1 } now fs).1.nextId :=
            growAll_nextId_le fs { w with
              heap := hupd w.heap w.nextId (growSeed now cls nt fc tg st fo ca sk),
              nextId := w.nextId + 1 } now
          rcases hg' with rfl | hg2
          · refine Or.inr ⟨Nat.le_refl _, ?_⟩
            simp only [growAll, growOne]
            omega
          · rcases ih { w with
                heap := hupd w.heap w.nextId (growSeed now cls nt fc tg st fo ca sk),
                nextId := w.nextId + 1 } g hg2 with hl | hr
            · exact Or.inl (List.mem_cons_of_mem _ hl)
            · refine Or.inr ⟨?_, ?_⟩
              · have := hr.1
                simp only at this
                omega
              · simpa [growAll, growOne] using hr.2

theorem isSeedAt_cons_succ (f : FollowerItem) (fs : List FollowerItem) (n : Nat) :
    isSeedAt (f :: fs) (n + 1) ↔ isSeedAt fs n := by
  simp [isSeedAt]

theorem growAll_seed_mono (fl : List FollowerItem) (w : World) (now : Nat) :
    ∀ n1 n2 g1 g2, n1 < n2 → isSeedAt fl n1 → isSeedAt fl n2 →
      (growAll w now fl).2.get? n1 = some g1 →
      (growAll w now fl).2.get? n2 = some g2 → g1 < g2 := by
  induction fl generalizing w with
  | nil =>
      intro n1 n2 g1 g2 _ hs1 _ _ _
      obtain ⟨_, _, _, _, _, _, _, _, hget⟩ := hs1
      simp at hget
  | cons f fs ih =>
      intro n1 n2 g1 g2 hlt hs1 hs2 hg1 hg2
      cases n2 with
      | zero => omega
      | succ n2' =>
          have hs2' : isSeedAt fs n2' := (isSeedAt_cons_succ f fs n2').mp hs2
          cases n1 with
          | zero =>
              obtain ⟨cls, nt, fc, tg, st, fo, ca, sk, hget⟩ := hs1
              have hf : f = FollowerItem.seed cls nt fc tg st fo ca sk := by
                simpa using hget
              subst hf
              have hg1' : g1 = w.nextId := by
                have : (growAll w now (FollowerItem.seed cls nt fc tg st fo ca sk :: fs)).2.get? 0
                    = some w.nextId := by simp [growAll, growOne]
                rw [this] at hg1
                exact (Option.some.inj hg1).symm
              obtain ⟨cls2, nt2, fc2, tg2, st2, fo2, ca2, sk2, hget2⟩ := hs2'
              obtain ⟨g, hga, hgb, hgc, hgd⟩ := growAll_seed_get fs { w with
                  heap := hupd w.heap w.nextId (growSeed now cls nt fc tg st fo ca sk),
                  nextId := w.nextId + 1 } now n2' cls2 nt2 fc2 tg2 st2 fo2 ca2 sk2 hget2
              have hg2' : (growAll { w with
                  heap := hupd w.heap w.nextId (growSeed now cls nt fc tg st fo ca sk),
                  nextId := w.nextId + 1 } now fs).2.get? n2' = some g2 := by
                simpa [growAll, growOne] using hg2
              have hgg : g = g2 := by
                rw [hga] at hg2'
                exact Option.some.inj hg2'
              have : w.nextId + 1 ≤ g := by
                have := hgb
                simpa using this
              omega
          | succ n1' =>
              have hs1' : isSeedAt fs n1' := (isSeedAt_cons_succ f fs n1').mp hs1
              cases f with
              | ref a =>
                  exact ih w n1' n2' g1 g2 (by omega) hs1' hs2'
                    (by simpa [growAll, growOne] using hg1)
                    (by simpa [growAll, growOne] using hg2)
              | seed cls nt fc tg st fo ca sk =>
                  exact ih { w with
                      heap := hupd w.heap w.nextId (growSeed now cls nt fc tg st fo ca sk),
                      nextId := w.nextId + 1 } n1' n2' g1 g2 (by omega) hs1' hs2'
                    (by simpa [growAll, growOne] using hg1)
                    (by simpa [growAll, growOne] using hg2)

/-! Properties of the final rescheduling loop. -/

theorem nextVal_time_update (a : ActionObj) (τ : Option Nat) (now : Nat) :
    nextVal { a with time := τ } now = nextVal a now := rfl

theorem nextAll_pool (l : List Nat) (w : World) (now : Nat) :
    (nextAll w now l).pool = w.pool := by
  induction l generalizing w with
  | nil => rfl
  | cons j js ih => simpa [nextAll] using ih (Action.next w j now)

theorem nextAll_log (l : List Nat) (w : World) (now : Nat) :
    (nextAll w now l).log = w.log := by
  induction l generalizing w with
  | nil => rfl
  | cons j js ih => simpa [nextAll] using ih (Action.next w j now)

theorem nextAll_nextId (l : List Nat) (w : World) (now : Nat) :
    (nextAll w now l).nextId = w.nextId := by
  induction l generalizing w with
  | nil => rfl
  | cons j js ih => simpa [nextAll] using ih (Action.next w j now)

theorem nextAll_heap_not_mem (l : List Nat) (w : World) (now : Nat)
    (k : Nat) (hk : k ∉ l) : (nextAll w now l).heap k = w.heap k := by
  induction l generalizing w with
  | nil => rfl
  | cons j js ih =>
      have hkj : k ≠ j := fun e => hk (e ▸ List.mem_cons_self j js)
      have hkjs : k ∉ js := fun h => hk (List.mem_cons_of_mem j h)
      have := ih (Action.next w j now) hkjs
      simp only [nextAll] at *
      rw [this]
      simp [Action.next, hupd_other _ _ _ _ hkj]

theorem nextAll_heap_shape (l : List Nat) (w : World) (now : Nat) (k : Nat) :
    ∃ τ, (nextAll w now l).heap k = { w.heap k with time := τ } := by
  induction l generalizing w with
  | nil => exact ⟨(w.heap k).time, rfl⟩
  | cons j js ih =>
      obtain ⟨τ, hτ⟩ := ih (Action.next w j now)
      by_cases hkj : k = j
      · subst hkj
        refine ⟨τ, ?_⟩
        simp only [nextAll]
        rw [hτ]
        simp [Action.next]
      · refine ⟨τ, ?_⟩
        simp only [nextAll]
        rw [hτ]
        simp [Action.next, hupd_other _ _ _ _ hkj]

theorem nextAll_time_mem (l : List Nat) (w : World) (now : Nat)
    (k : Nat) (hk : k ∈ l) :
    ((nextAll w now l).heap k).time = nextVal (w.heap k) now := by
  induction l generalizing w with
  | nil => cases hk
  | cons j js ih =>
      by_cases hkjs : k ∈ js
      · have := ih (Action.next w j now) hkjs
        simp only [nextAll] at *
        rw [this]
        by_cases hkj : k = j
        · subst hkj
          simp [Action.next, nextVal_time_update]
        · simp [Action.next, hupd_other _ _ _ _ hkj]
      · have hkj : k = j := by
          rcases List.mem_cons.mp hk with h | h
          · exact h
          · exact absurd h hkjs
        subst hkj
        have hrest := nextAll_heap_not_mem js (Action.next w k now) now k hkjs
        simp only [nextAll]
        rw [hrest]
        simp [Action.next]

/-! Small glue facts for the one-time success path. -/

theorem followerIds_map_ref (l : List Nat) :
    followerIds (l.map FollowerItem.ref) = l := by
  induction l with
  | nil => rfl
  | cons a rest ih => simp [followerIds, ih]

theorem map_congrP {α β : Type} (f g : α → β) (l : List α)
    (h : ∀ a ∈ l, f a = g a) : l.map f = l.map g := by
  induction l with
  | nil => rfl
  | cons a rest ih =>
      simp only [List.map_cons, h a (List.mem_cons_self a rest)]
      rw [ih (fun x hx => h x (List.mem_cons_of_mem a hx))]

theorem filter_congrP {α : Type} (p q : α → Bool) (l : List α)
    (h : ∀ a ∈ l, p a = q a) : l.filter p = l.filter q := by
  induction l with
  | nil => rfl
  | cons a rest ih =>
      simp only [List.filter_cons, h a (List.mem_cons_self a rest)]
      rw [ih (fun x hx => h x (List.mem_cons_of_mem a hx))]

theorem inPool_time_collapse (a : ActionObj) (b : Bool) (τ : Option Nat) :
    ({ { a with inPool := b } with time := τ } : ActionObj) =
      { a with inPool := b, time := τ } := rfl

theorem inPool_self (a : ActionObj) : ({ a with inPool := a.inPool } : ActionObj) = a := rfl

set_option maxHeartbeats 1000000

/-- C1 amended: when an attached one-time action's work succeeds, provided the
pool members' scheduled times are all concrete and pairwise distinct (so the
`__cmp__`-equality removal scan neither raises `TypeError` on a `None` time
nor hits the wrong object), the resolvable cancel targets are distinct and
the directly referenced ones are members, and the prebuilt followers are
neither the action itself nor cancel targets: the action removes
itself, removes every resolvable cancel target (silently skipping
unresolvable ones), replaces each deferred factory in its follower list with
an action grown once at trigger time (prebuilt followers pass through
unchanged, distinct factories give distinct instances), appends to the pool
exactly the followers surviving extend's member-only dedup rule, marks them
attached, and reschedules every inserted follower via its next-time rule at
trigger time. -/
theorem c1_onetime_success (w : World) (i t d : Nat) (r : Int)
    (hr : r ≠ 0)
    (hin : (w.heap i).inPool = true)
    (hmem : i ∈ w.pool)
    (hdt : TimesDistinct w.heap w.pool)
    (hdef : ∀ j ∈ w.pool, (w.heap j).time ≠ none)
    (hnd : (targetsOf w.heap (w.pool.erase i) ((w.heap i).cancel)).Nodup)
    (hrefp : ∀ j, CancelItem.ref j ∈ (w.heap i).cancel → j ∈ w.pool.erase i)
    (hpw : ∀ j ∈ w.pool, j < w.nextId)
    (hfne : ∀ a, FollowerItem.ref a ∈ (w.heap i).followers →
      a ≠ i ∧ a ∉ targetsOf w.heap (w.pool.erase i) ((w.heap i).cancel)) :
    ∃ (w' : World) (mids : List Nat),
      OneTimeAction.call w i t d r = Except.ok w' ∧
      i ∉ w'.pool ∧
      (∀ j ∈ targetsOf w.heap (w.pool.erase i) ((w.heap i).cancel), j ∉ w'.pool) ∧
      (w'.heap i).followers = mids.map FollowerItem.ref ∧
      mids.length = (w.heap i).followers.length ∧
      (∀ n a, (w.heap i).followers.get? n = some (FollowerItem.ref a) →
        mids.get? n = some a) ∧
      (∀ n cls nt f tg st fo ca sk,
        (w.heap i).followers.get? n = some (FollowerItem.seed cls nt f tg st fo ca sk) →
        ∃ g, mids.get? n = some g ∧ w.nextId ≤ g ∧
          ∃ b τ, w'.heap g = { growSeed (t + d) cls nt f tg st fo ca sk with
            inPool := b, time := τ }) ∧
      (∀ n1 n2 g1 g2, n1 ≠ n2 →
        isSeedAt (w.heap i).followers n1 → isSeedAt (w.heap i).followers n2 →
        mids.get? n1 = some g1 → mids.get? n2 = some g2 → g1 ≠ g2) ∧
      w'.pool =
        (targetsOf w.heap (w.pool.erase i) ((w.heap i).cancel)).foldl List.erase
          (w.pool.erase i) ++
        mids.filter (fun g => decide ((w'.heap g).func ∉
          ((targetsOf w.heap (w.pool.erase i) ((w.heap i).cancel)).foldl List.erase
            (w.pool.erase i)).map (fun j => (w'.heap j).func))) ∧
      (∀ g ∈ mids.filter (fun g => decide ((w'.heap g).func ∉
          ((targetsOf w.heap (w.pool.erase i) ((w.heap i).cancel)).foldl List.erase
            (w.pool.erase i)).map (fun j => (w'.heap j).func))),
        (w'.heap g).inPool = true ∧ (w'.heap g).time = nextVal (w'.heap g) (t + d)) := by
  have hiN : i < w.nextId := hpw i hmem
  -- the world right after the log line and the `lastexectime` write
  set w0 : World := setLastExec (logI w ((w.heap i).func)) i t with hw0def
  have h0pool : w0.pool = w.pool := rfl
  have h0nid : w0.nextId = w.nextId := rfl
  have h0heapi : w0.heap i = { w.heap i with lastexectime := some t } := by
    simp [hw0def, setLastExec, logI]
  have h0heap : ∀ k, k ≠ i → w0.heap k = w.heap k := by
    intro k hk
    simp [hw0def, setLastExec, logI, hupd, hk]
  have h0time : ∀ k, (w0.heap k).time = (w.heap k).time := by
    intro k
    by_cases hk : k = i
    · subst hk; rw [h0heapi]
    · rw [h0heap k hk]
  have hinb : (w0.heap i).inPool = true := by rw [h0heapi]; exact hin
  -- removal of self
  have hdt0 : TimesDistinct w0.heap w0.pool := by
    rw [h0pool]
    exact TimesDistinct_congr w.heap w0.heap w.pool h0time hdt
  have hdef0 : ∀ k ∈ w0.pool, (w0.heap k).time ≠ none := by
    intro k hk
    rw [h0time k]
    exact hdef k hk
  have hrem : ActionPool.remove w0 i =
      Except.ok { setInPool w0 i false with pool := w0.pool.erase i } :=
    remove_exact w0 i hdt0 hdef0 (by rw [h0pool]; exact hmem)
  set w1 : World := { setInPool w0 i false with pool := w0.pool.erase i } with hw1def
  have h1pool : w1.pool = w.pool.erase i := rfl
  have h1nid : w1.nextId = w.nextId := rfl
  have h1heapi : w1.heap i =
      { w.heap i with lastexectime := some t, inPool := false } := by
    have : w1.heap i = { w0.heap i with inPool := false } := by
      simp [hw1def, setInPool_heap]
    rw [this, h0heapi]
  have h1heap : ∀ k, k ≠ i → w1.heap k = w.heap k := by
    intro k hk
    have : w1.heap k = w0.heap k := by
      simp [hw1def, setInPool_heap, hk]
    rw [this, h0heap k hk]
  have h1time : ∀ k, (w1.heap k).time = (w.heap k).time := by
    intro k
    by_cases hk : k = i
    · subst hk; rw [h1heapi]
    · rw [h1heap k hk]
  have h1func : ∀ k, (w1.heap k).func = (w.heap k).func := by
    intro k
    by_cases hk : k = i
    · subst hk; rw [h1heapi]
    · rw [h1heap k hk]
  have h1tag : ∀ k, (w1.heap k).tag = (w.heap k).tag := by
    intro k
    by_cases hk : k = i
    · subst hk; rw [h1heapi]
    · rw [h1heap k hk]
  have h1cancel : (w1.heap i).cancel = (w.heap i).cancel := by rw [h1heapi]
  have h1fol : (w1.heap i).followers = (w.heap i).followers := by rw [h1heapi]
  -- the cancellation loop
  have hdt1 : TimesDistinct w1.heap w1.pool := by
    rw [h1pool]
    exact TimesDistinct_congr w.heap w1.heap _ h1time
      (hdt.sublist (List.erase_sublist i w.pool))
  have hT1 : targetsOf w1.heap w1.pool ((w1.heap i).cancel) =
      targetsOf w.heap (w.pool.erase i) ((w.heap i).cancel) := by
    rw [h1cancel, h1pool]
    exact targetsOf_congr w.heap w1.heap _ _ h1func h1tag
  have hdef1 : ∀ k ∈ w1.pool, (w1.heap k).time ≠ none := by
    intro k hk
    rw [h1time k]
    exact hdef k (List.erase_subset i w.pool hk)
  obtain ⟨w2, hcf, h2poolE, h2io, h2nmE, h2nidE, h2logE⟩ :=
    cancelFold_spec ((w1.heap i).cancel) w1 hdt1 hdef1 (by rw [hT1]; exact hnd)
      (by intro j hj
          rw [h1pool]
          exact hrefp j (by rwa [h1cancel] at hj))
  have h2pool : w2.pool =
      (targetsOf w.heap (w.pool.erase i) ((w.heap i).cancel)).foldl List.erase
        (w.pool.erase i) := by
    rw [h2poolE, hT1, h1pool]
  have h2nm : ∀ j ∈ targetsOf w.heap (w.pool.erase i) ((w.heap i).cancel),
      j ∉ w2.pool := by
    rw [← hT1]; exact h2nmE
  have h2nid : w2.nextId = w.nextId := by rw [h2nidE, h1nid]
  have h2fol : (w2.heap i).followers = (w.heap i).followers := by
    rw [h2io.followers_eq i, h1fol]
  have h2func : ∀ k, (w2.heap k).func = (w.heap k).func := by
    intro k; rw [h2io.func_eq k, h1func k]
  have h2time : ∀ k, (w2.heap k).time = (w.heap k).time := by
    intro k; rw [h2io.time_eq k, h1time k]
  -- assemble the call down to the follower block
  have hcall : OneTimeAction.call w i t d r =
      Except.ok (logI (nextAll (followersPhase w2 i (t + d)) (t + d)
        (followerIds (((followersPhase w2 i (t + d)).heap i).followers)))
        ((w.heap i).func)) := by
    simp only [OneTimeAction.call]
    rw [if_pos hr, ← hw0def, if_pos hinb, hrem]
    simp only [except_bind_ok]
    rw [hcf]
    rfl
  -- non-membership of the invoked action in the post-cancel pool
  have hiP1 : i ∉ w.pool.erase i := by
    intro h
    exact ((hdt.nodup).mem_erase_iff.mp h).1 rfl
  have hsub2 : w2.pool.Sublist (w.pool.erase i) := by
    rw [h2pool]
    exact foldl_erase_sublist _ _
  have hi2 : i ∉ w2.pool := fun h => hiP1 (hsub2.subset h)
  have htgtP : ∀ j ∈ targetsOf w.heap (w.pool.erase i) ((w.heap i).cancel),
      j < w.nextId := by
    intro j hj
    have h1 : j ∈ w.pool.erase i :=
      targetsOf_mem_pool w.heap (w.pool.erase i) ((w.heap i).cancel) hrefp j hj
    exact hpw j (List.erase_subset i w.pool h1)
  by_cases hFLe : (w2.heap i).followers.isEmpty
  · -- no followers: the block is skipped entirely
    have hFLnil : (w2.heap i).followers = [] := List.isEmpty_iff.mp hFLe
    have hWFnil : (w.heap i).followers = [] := by rw [← h2fol]; exact hFLnil
    have hfp : followersPhase w2 i (t + d) = w2 := by
      simp [followersPhase, hFLe]
    have hcall2 : OneTimeAction.call w i t d r =
        Except.ok (logI w2 ((w.heap i).func)) := by
      rw [hcall, hfp, hFLnil]
      simp [followerIds, nextAll]
    refine ⟨logI w2 ((w.heap i).func), [], hcall2, hi2, h2nm, ?_, ?_, ?_, ?_, ?_, ?_, ?_⟩
    · show (w2.heap i).followers = ([] : List Nat).map FollowerItem.ref
      rw [hFLnil]; rfl
    · rw [hWFnil]; rfl
    · intro n a h
      rw [hWFnil] at h
      simp at h
    · intro n cls nt f tg st fo ca sk h
      rw [hWFnil] at h
      simp at h
    · intro n1 n2 g1 g2 _ _ _ hg1 _
      simp at hg1
    · show w2.pool = _
      rw [h2pool]
      simp
    · intro g hg
      simp at hg
  · -- the follower block runs
    obtain ⟨G, mids, hGdef⟩ :
        ∃ G mids, growAll w2 (t + d) ((w2.heap i).followers) = (G, mids) := ⟨_, _, rfl⟩
    have hGpool : G.pool = w2.pool := by
      have := growAll_pool ((w2.heap i).followers) w2 (t + d)
      rwa [hGdef] at this
    have hGlog : G.log = w2.log := by
      have := growAll_log ((w2.heap i).followers) w2 (t + d)
      rwa [hGdef] at this
    have hGnid : w2.nextId ≤ G.nextId := by
      have := growAll_nextId_le ((w2.heap i).followers) w2 (t + d)
      rwa [hGdef] at this
    have hGheap : ∀ k, k < w.nextId → G.heap k = w2.heap k := by
      intro k hk
      have := growAll_heap_lt ((w2.heap i).followers) w2 (t + d) k (by rw [h2nid]; exact hk)
      rwa [hGdef] at this
    have hmlen : mids.length = (w.heap i).followers.length := by
      have := growAll_length ((w2.heap i).followers) w2 (t + d)
      rw [hGdef] at this
      rw [← h2fol]
      exact this
    have hmidsmem : ∀ g ∈ mids,
        FollowerItem.ref g ∈ (w.heap i).followers ∨ w.nextId ≤ g := by
      intro g hg
      have := growAll_mem ((w2.heap i).followers) w2 (t + d) g (by rw [hGdef]; exact hg)
      rcases this with h | h
      · exact Or.inl (by rw [← h2fol]; exact h)
      · exact Or.inr (by rw [← h2nid]; exact h.1)
    have hinotmids : i ∉ mids := by
      intro h
      rcases hmidsmem i h with h' | h'
      · exact (hfne i h').1 rfl
      · omega
    have htgtnotmids : ∀ j ∈ targetsOf w.heap (w.pool.erase i) ((w.heap i).cancel),
        j ∉ mids := by
      intro j hj hjm
      rcases hmidsmem j hjm with h' | h'
      · exact (hfne j h').2 hj
      · exact absurd h' (by have := htgtP j hj; omega)
    -- the worlds through the extend and the rescheduling loop
    set a3 : ActionObj := { G.heap i with followers := mids.map FollowerItem.ref } with ha3def
    set w3 : World := { G with heap := hupd G.heap i a3 } with hw3def
    have hfp : followersPhase w2 i (t + d) = (ActionPool.extend w3 mids).1 := by
      simp only [followersPhase, hFLe, Bool.false_eq_true, if_false, hGdef]
    have h3pool : w3.pool = w2.pool := by rw [hw3def]; exact hGpool
    have h3heapi : w3.heap i = { G.heap i with followers := mids.map FollowerItem.ref } := by
      rw [hw3def]
      show hupd G.heap i a3 i = _
      rw [hupd_same, ha3def]
    have h3heap : ∀ k, k ≠ i → w3.heap k = G.heap k := by
      intro k hk
      rw [hw3def]
      exact hupd_other _ _ _ _ hk
    set keep := mids.filter (fun g => decide ((w3.heap g).func ∉ funcs w3)) with hkeepdef
    set w4 : World := setInPoolAll { w3 with pool := w3.pool ++ keep } keep with hw4def
    have hext : (ActionPool.extend w3 mids).1 = w4 := rfl
    have h4pool : w4.pool = w2.pool ++ keep := by
      rw [hw4def, setInPoolAll_pool, ← h3pool]
    have h4heap : ∀ k, w4.heap k =
        if k ∈ keep then { w3.heap k with inPool := true } else w3.heap k := by
      intro k
      rw [hw4def]
      exact setInPoolAll_heap keep _ k
    have h4heapi : (w4.heap i).followers = mids.map FollowerItem.ref := by
      rw [h4heap i]
      by_cases hik : i ∈ keep
      · rw [if_pos hik]
        show (w3.heap i).followers = _
        rw [h3heapi]
      · rw [if_neg hik, h3heapi]
    set w5 : World := nextAll w4 (t + d) mids with hw5def
    have hcall2 : OneTimeAction.call w i t d r =
        Except.ok (logI w5 ((w.heap i).func)) := by
      rw [hcall, hfp, hext, h4heapi, followerIds_map_ref, hw5def]
    -- field stability into the final world
    have hfunc43 : ∀ k, (w4.heap k).func = (w3.heap k).func := by
      intro k
      rw [h4heap k]
      by_cases hk : k ∈ keep
      · rw [if_pos hk]
      · rw [if_neg hk]
    have h5shape : ∀ k, ∃ τ, w5.heap k = { w4.heap k with time := τ } := by
      intro k
      rw [hw5def]
      exact nextAll_heap_shape mids w4 (t + d) k
    have hfunc54 : ∀ k, (w5.heap k).func = (w4.heap k).func := by
      intro k
      obtain ⟨τ, e⟩ := h5shape k
      rw [e]
    have hfuncW : ∀ k, (w5.heap k).func = (w3.heap k).func := by
      intro k
      rw [hfunc54 k, hfunc43 k]
    have h5pool : w5.pool = w4.pool := by rw [hw5def]; exact nextAll_pool mids w4 (t + d)
    -- the filter in the statement is the filter the extend used
    have hfuncsw3 : funcs w3 =
        ((targetsOf w.heap (w.pool.erase i) ((w.heap i).cancel)).foldl List.erase
          (w.pool.erase i)).map (fun j => (w5.heap j).func) := by
      show w3.pool.map (fun j => (w3.heap j).func) = _
      rw [h3pool, h2pool]
      exact (map_congrP _ _ _ (fun j _ => (hfuncW j))).symm
    have hkeepeq : mids.filter (fun g => decide ((w5.heap g).func ∉
        ((targetsOf w.heap (w.pool.erase i) ((w.heap i).cancel)).foldl List.erase
          (w.pool.erase i)).map (fun j => (w5.heap j).func))) = keep := by
      rw [hkeepdef]
      refine filter_congrP _ _ _ ?_
      intro g _
      rw [hfuncW g, hfuncsw3]
    have hkeepmids : ∀ g ∈ keep, g ∈ mids := by
      intro g hg
      rw [hkeepdef] at hg
      exact List.mem_of_mem_filter hg
    set w6 : World := logI w5 ((w.heap i).func) with hw6def
    have h6heap : w6.heap = w5.heap := by rw [hw6def]; rfl
    have h6pool : w6.pool = w5.pool := by rw [hw6def]; rfl
    have hcall3 : OneTimeAction.call w i t d r = Except.ok w6 := by rw [hcall2, hw6def]
    refine ⟨w6, mids, hcall3, ?_, ?_, ?_, hmlen, ?_, ?_, ?_, ?_, ?_⟩
    · -- removes itself
      rw [h6pool, h5pool, h4pool]
      intro h
      rcases List.mem_append.mp h with h' | h'
      · exact hi2 h'
      · exact hinotmids (hkeepmids i h')
    · -- removes the resolvable cancel targets
      intro j hj
      rw [h6pool, h5pool, h4pool]
      intro h
      rcases List.mem_append.mp h with h' | h'
      · exact h2nm j hj h'
      · exact htgtnotmids j hj (hkeepmids j h')
    · -- followers now hold exactly the materialized actions
      rw [h6heap]
      have : w5.heap i = w4.heap i := by
        rw [hw5def]
        exact nextAll_heap_not_mem mids w4 (t + d) i hinotmids
      rw [this, h4heapi]
    · -- prebuilt followers pass through unchanged
      intro n a h
      have h' : (w2.heap i).followers.get? n = some (FollowerItem.ref a) := by
        rw [h2fol]; exact h
      have := growAll_ref_get ((w2.heap i).followers) w2 (t + d) n a h'
      rwa [hGdef] at this
    · -- each deferred factory is grown exactly once, at trigger time
      intro n cls nt f tg st fo ca sk h
      have h' : (w2.heap i).followers.get? n =
          some (FollowerItem.seed cls nt f tg st fo ca sk) := by
        rw [h2fol]; exact h
      obtain ⟨g, hga, hgb, hgc, hgd⟩ :=
        growAll_seed_get ((w2.heap i).followers) w2 (t + d) n cls nt f tg st fo ca sk h'
      rw [hGdef] at hga hgc hgd
      refine ⟨g, hga, by rw [← h2nid]; exact hgb, ?_⟩
      have hgi : g ≠ i := by
        have : w.nextId ≤ g := by rw [← h2nid]; exact hgb
        omega
      have h3g : w3.heap g = growSeed (t + d) cls nt f tg st fo ca sk := by
        rw [h3heap g hgi]
        exact hgd
      obtain ⟨τ, hτ⟩ := h5shape g
      by_cases hk : g ∈ keep
      · refine ⟨true, τ, ?_⟩
        rw [h6heap, hτ, h4heap g, if_pos hk, h3g]
      · refine ⟨(growSeed (t + d) cls nt f tg st fo ca sk).inPool, τ, ?_⟩
        rw [h6heap, hτ, h4heap g, if_neg hk, h3g]
    · -- distinct factories yield distinct instances
      intro n1 n2 g1 g2 hne2 hs1 hs2 hg1 hg2
      have hs1' : isSeedAt (w2.heap i).followers n1 := by rw [h2fol]; exact hs1
      have hs2' : isSeedAt (w2.heap i).followers n2 := by rw [h2fol]; exact hs2
      have hg1' : (growAll w2 (t + d) ((w2.heap i).followers)).2.get? n1 = some g1 := by
        rw [hGdef]; exact hg1
      have hg2' : (growAll w2 (t + d) ((w2.heap i).followers)).2.get? n2 = some g2 := by
        rw [hGdef]; exact hg2
      rcases Nat.lt_or_ge n1 n2 with hlt | hge
      · exact Nat.ne_of_lt (growAll_seed_mono ((w2.heap i).followers) w2 (t + d)
          n1 n2 g1 g2 hlt hs1' hs2' hg1' hg2')
      · have hlt2 : n2 < n1 := by omega
        exact (Nat.ne_of_lt (growAll_seed_mono ((w2.heap i).followers) w2 (t + d)
          n2 n1 g2 g1 hlt2 hs2' hs1' hg2' hg1')).symm
    · -- the pool after: survivors of the cancel loop plus the deduped followers
      rw [h6heap, h6pool, h5pool, h4pool, hkeepeq, h2pool]
    · -- the inserted followers are attached and rescheduled at trigger time
      intro g hg
      rw [h6heap] at hg
      rw [hkeepeq] at hg
      have hgm : g ∈ mids := hkeepmids g hg
      obtain ⟨τ, hτ⟩ := h5shape g
      constructor
      · rw [h6heap, hτ, h4heap g, if_pos hg]
      · rw [h6heap]
        have htm : (w5.heap g).time = nextVal (w4.heap g) (t + d) := by
          rw [hw5def]
          exact nextAll_time_mem mids w4 (t + d) g hgm
        rw [htm, hτ]
        exact (nextVal_time_update _ _ _).symm

/-- C1 counterexample: pool `[0, 1]` whose members share scheduled time 5.
Invoking the attached one-time action 1 with a successful work result leaves
the pool as `[1]`: `self.pool.remove(self)` drops the first member with an
equal scheduled time — member 0 — so the action does not remove itself. -/
theorem c1_counterexample :
    cwB.pool = [0, 1] ∧ (cwB.heap 0).time = (cwB.heap 1).time ∧
    Except.map World.pool (OneTimeAction.call cwB 1 10 0 1) = Except.ok [1] :=
  ⟨rfl, rfl, rfl⟩

theorem c1_onetime_success_witness :
    ∃ (w' : World) (mids : List Nat),
      OneTimeAction.call cwC 0 100 4 1 = Except.ok w' ∧
      0 ∉ w'.pool ∧
      (∀ j ∈ targetsOf cwC.heap (cwC.pool.erase 0) ((cwC.heap 0).cancel),
        j ∉ w'.pool) ∧
      (w'.heap 0).followers = mids.map FollowerItem.ref ∧
      mids.length = (cwC.heap 0).followers.length ∧
      (∀ n cls nt f tg st fo ca sk,
        (cwC.heap 0).followers.get? n =
          some (FollowerItem.seed cls nt f tg st fo ca sk) →
        ∃ g, mids.get? n = some g ∧ cwC.nextId ≤ g ∧
          ∃ b τ, w'.heap g = { growSeed (100 + 4) cls nt f tg st fo ca sk with
            inPool := b, time := τ }) := by
  obtain ⟨w', mids, h1, h2, h3, h4, h5, h6, h7, h8, h9, h10⟩ :=
    c1_onetime_success cwC 0 100 4 1 (by decide) rfl (by decide)
      (by unfold TimesDistinct; decide) (by decide) (by decide)
      (by intro j h; simp [cwC, otAct, mkAct, act0] at h)
      (by decide)
      (by intro a h; simp [cwC, otAct, mkAct, act0] at h)
  exact ⟨w', mids, h1, h2, h3, h4, h5, h7⟩
